import Mathlib

/-!
# Circular buffer `cbuffer<T>` (include/cbuffer.h)

A shallow embedding of the class template `cbuffer<T>`.

* `size_type` is `unsigned int`: every value of that type is a natural number
  below `UINT_RANGE = 2^32`, and `+`, `-`, `++`, `--` on it wrap modulo `2^32`
  (`uadd`, `usub`).
* The heap array `_buffer` is `Option (List α)`: `none` is `nullptr`, `some l`
  is an array of `l.length` slots.  `new value_type[n]` is `List.replicate n default`.
* Undefined behaviour and aborts are results `Except.error`: a failed `assert`
  (`Fault.assertion`), `x % 0` (`Fault.division_by_zero`), an access through
  `nullptr` or outside the array (`Fault.bad_access`).
* `assert` is compiled out when `NDEBUG` is defined; the operations that contain
  an `assert` take the flag `ndebug`.
* `new` is taken to succeed and copying a `T` does not throw (the `catch (...)`
  branches are not reached); a slot that was never assigned holds `default`.
* The `std::cout` traces and the two `print_*` methods have no effect on the
  data members and are left out.
-/

namespace CircularBuffer

/-! ## `size_type` arithmetic -/

/-- Number of values of `size_type` (`unsigned int`, 32 bits). -/
def UINT_RANGE : Nat := 4294967296

/-- The operator `a + b` on `size_type`. -/
def uadd (a b : Nat) : Nat := (a + b) % UINT_RANGE

/-- The operator `a - b` on `size_type`. -/
def usub (a b : Nat) : Nat := (a + (UINT_RANGE - b % UINT_RANGE)) % UINT_RANGE

/-! ## Faults and raw storage access -/

/-- The ways an operation can leave defined behaviour. -/
inductive Fault where
  | assertion
  | division_by_zero
  | bad_access
deriving DecidableEq

/-- Read of `buf[p]`. -/
def load {α : Type} (buf : Option (List α)) (p : Nat) : Except Fault α :=
  match buf with
  | none => .error .bad_access
  | some l =>
    match l[p]? with
    | none => .error .bad_access
    | some v => .ok v

/-- Write `buf[p] = v`. -/
def store {α : Type} (buf : Option (List α)) (p : Nat) (v : α) :
    Except Fault (Option (List α)) :=
  match buf with
  | none => .error .bad_access
  | some l => if p < l.length then .ok (some (l.set p v)) else .error .bad_access

/-! ## The class -/

/-- The data members of `cbuffer<T>`. -/
structure cbuffer (α : Type) where
  _buffer : Option (List α)
  _capacity : Nat
  _currentSize : Nat
  _head : Nat
  _tail : Nat
deriving DecidableEq

namespace cbuffer

variable {α : Type}

/-- The default constructor `cbuffer()`. -/
def ctor_default : cbuffer α := ⟨none, 0, 0, 0, 0⟩

/-- The constructor `cbuffer(size_type capacity)`. -/
def ctor_capacity [Inhabited α] (capacity : Nat) : cbuffer α :=
  ⟨some (List.replicate capacity default), capacity, 0, 0, 0⟩

/-- The method `clear()`. -/
def clear (_b : cbuffer α) : cbuffer α := ⟨none, 0, 0, 0, 0⟩

/-- The method `swap(other)`: the pair is (new `*this`, new `other`). -/
def swap (b other : cbuffer α) : cbuffer α × cbuffer α := (other, b)

/-- The getter `get_head_physical_index()`. -/
def get_head_physical_index (b : cbuffer α) : Nat := b._head

/-- The getter `get_tail_physical_index()`. -/
def get_tail_physical_index (b : cbuffer α) : Nat := b._tail

/-- The getter `get_currentSize()`. -/
def get_currentSize (b : cbuffer α) : Nat := b._currentSize

/-- The getter `get_capacity()`. -/
def get_capacity (b : cbuffer α) : Nat := b._capacity

/-- Read through `operator[](index)` (both overloads compute the same slot). -/
def operator_index (ndebug : Bool) (b : cbuffer α) (index : Nat) : Except Fault α :=
  if ndebug = false ∧ ¬ index < b._currentSize then .error .assertion
  else if b._capacity = 0 then .error .division_by_zero
  else load b._buffer (uadd b._head index % b._capacity)

/-- Write through the reference returned by `operator[](index)`:
`(*this)[index] = value`. -/
def assign_index (ndebug : Bool) (b : cbuffer α) (index : Nat) (value : α) :
    Except Fault (cbuffer α) :=
  if ndebug = false ∧ ¬ index < b._currentSize then .error .assertion
  else if b._capacity = 0 then .error .division_by_zero
  else
    match store b._buffer (uadd b._head index % b._capacity) value with
    | .error e => .error e
    | .ok buf => .ok { b with _buffer := buf }

/-- The method `add_tail(value)`. -/
def add_tail (b : cbuffer α) (value : α) : Except Fault (cbuffer α) :=
  if b._capacity = 0 then .error .division_by_zero
  else
    match store b._buffer (uadd b._head b._currentSize % b._capacity) value with
    | .error e => .error e
    | .ok buf =>
      let size := if b._currentSize < b._capacity then uadd b._currentSize 1
                  else b._currentSize
      let head := if b._currentSize < b._capacity then b._head
                  else uadd b._head 1 % b._capacity
      .ok ⟨buf, b._capacity, size, head, usub (uadd head size) 1 % b._capacity⟩

/-- The method `remove_head()`. -/
def remove_head (ndebug : Bool) (b : cbuffer α) : Except Fault (cbuffer α) :=
  if ndebug = false ∧ ¬ 0 < b._currentSize then .error .assertion
  else if b._capacity = 0 then .error .division_by_zero
  else
    let head := uadd b._head 1 % b._capacity
    let size := usub b._currentSize 1
    if size = 0 then .ok ⟨b._buffer, b._capacity, size, 0, 0⟩
    else .ok ⟨b._buffer, b._capacity, size, head, b._tail⟩

/-- The method `remove_tail()`. -/
def remove_tail (ndebug : Bool) (b : cbuffer α) : Except Fault (cbuffer α) :=
  if ndebug = false ∧ ¬ 0 < b._currentSize then .error .assertion
  else if b._capacity = 0 then .error .division_by_zero
  else
    let tail := usub (uadd b._tail b._capacity) 1 % b._capacity
    let size := usub b._currentSize 1
    if size = 0 then .ok ⟨b._buffer, b._capacity, size, 0, 0⟩
    else .ok ⟨b._buffer, b._capacity, size, b._head, tail⟩

/-- The getter `get_head()`, that is `(*this)[0]`. -/
def get_head (ndebug : Bool) (b : cbuffer α) : Except Fault α :=
  operator_index ndebug b 0

/-- The getter `get_tail()`, that is `(*this)[_currentSize-1]`. -/
def get_tail (ndebug : Bool) (b : cbuffer α) : Except Fault α :=
  operator_index ndebug b (usub b._currentSize 1)

/-- The loop `for (; begin != end; ++begin) add_tail(*begin)` of the range
constructor, over the values `xs` of the source sequence. -/
def add_all (b : cbuffer α) : List α → Except Fault (cbuffer α)
  | [] => .ok b
  | x :: xs =>
    match add_tail b x with
    | .error e => .error e
    | .ok b' => add_all b' xs

/-- The constructor `cbuffer(size_type capacity, Q begin, Q end)`. -/
def ctor_range [Inhabited α] (capacity : Nat) (xs : List α) : Except Fault (cbuffer α) :=
  add_all (ctor_capacity capacity) xs

/-- The loop `for (i = 0; i < _currentSize; ++i) (*this)[i] = other[i]` of the
copy constructor, from `i` on, with `n` iterations left. -/
def copy_loop (ndebug : Bool) (other : cbuffer α) :
    Nat → Nat → cbuffer α → Except Fault (cbuffer α)
  | 0, _, b => .ok b
  | n + 1, i, b =>
    match operator_index ndebug other i with
    | .error e => .error e
    | .ok v =>
      match assign_index ndebug b i v with
      | .error e => .error e
      | .ok b' => copy_loop ndebug other n (uadd i 1) b'

/-- The copy constructor `cbuffer(const cbuffer &other)`. -/
def ctor_copy [Inhabited α] (ndebug : Bool) (other : cbuffer α) : Except Fault (cbuffer α) :=
  copy_loop ndebug other other._currentSize 0
    ⟨some (List.replicate other._capacity default), other._capacity,
      other._currentSize, other._head, other._tail⟩

/-- The assignment `*this = other`; `same_object` says whether
`this == &other`. -/
def operator_assign [Inhabited α] (ndebug : Bool) (same_object : Bool)
    (b other : cbuffer α) : Except Fault (cbuffer α) :=
  if same_object then .ok b
  else
    match ctor_copy ndebug other with
    | .error e => .error e
    | .ok tmp => .ok (swap tmp b).2

end cbuffer

/-! ## Iterators

`iterator` and `const_iterator` have the same members and the same operators;
one structure stands for both. -/

/-- The data members of `cbuffer<T>::iterator` (and `const_iterator`). -/
structure iterator (α : Type) where
  buffer : Option (List α)
  capacity : Nat
  index : Nat
  count : Nat
deriving DecidableEq

namespace iterator

variable {α : Type}

/-- The operator `*it`. -/
def deref (it : iterator α) : Except Fault α := load it.buffer it.index

/-- The operator `++it`. -/
def incr (it : iterator α) : Except Fault (iterator α) :=
  if it.capacity = 0 then .error .division_by_zero
  else .ok ⟨it.buffer, it.capacity, uadd it.index 1 % it.capacity, usub it.count 1⟩

/-- The operator `it != other`. -/
def ne (it other : iterator α) : Bool := it.count != other.count

end iterator

namespace cbuffer

variable {α : Type}

/-- The method `begin()`. -/
def begin (b : cbuffer α) : iterator α :=
  ⟨b._buffer, b._capacity, b._head, b._currentSize⟩

/-- The method `end()`. -/
def end_ (b : cbuffer α) : iterator α :=
  ⟨b._buffer, b._capacity, uadd b._tail 1, 0⟩

/-- The loop `for (; it != last; ++it) yield *it`, run for at most `fuel`
evaluations of the loop condition.  `none`: the fuel ran out before the loop
ended. -/
def traverse_loop (last : iterator α) : Nat → iterator α → Option (Except Fault (List α))
  | 0, _ => none
  | fuel + 1, it =>
    if it.ne last then
      match it.deref with
      | .error e => some (.error e)
      | .ok v =>
        match it.incr with
        | .error e => some (.error e)
        | .ok it' =>
          match traverse_loop last fuel it' with
          | some (.ok vs) => some (.ok (v :: vs))
          | r => r
    else some (.ok [])

/-- The loop `for (it = b.begin(); it != b.end(); ++it) yield *it`. -/
def traverse (fuel : Nat) (b : cbuffer α) : Option (Except Fault (List α)) :=
  traverse_loop b.end_ fuel b.begin

end cbuffer

/-! ## Sequences of calls -/

/-- A call of one of the mutating methods on a single buffer. -/
inductive Op (α : Type) where
  | add_tail (value : α)
  | remove_head
  | remove_tail
  | clear
deriving DecidableEq

/-- Whether the call is `clear()`. -/
def Op.is_clear {α : Type} : Op α → Bool
  | .clear => true
  | _ => false

/-- One call. -/
def Op.apply {α : Type} (ndebug : Bool) : Op α → cbuffer α → Except Fault (cbuffer α)
  | .add_tail v, b => b.add_tail v
  | .remove_head, b => b.remove_head ndebug
  | .remove_tail, b => b.remove_tail ndebug
  | .clear, b => .ok b.clear

/-- A sequence of calls, stopped by the first fault.  With `ndebug = false` the
assertions are the preconditions `@pre get_currentSize() > 0`, so a run that
ends in `Except.ok` is a sequence of calls whose preconditions hold. -/
def run {α : Type} (ndebug : Bool) : List (Op α) → cbuffer α → Except Fault (cbuffer α)
  | [], b => .ok b
  | o :: os, b =>
    match o.apply ndebug b with
    | .error e => .error e
    | .ok b' => run ndebug os b'

/-- The states a `cbuffer` object can be in: built by a constructor with
arguments of type `size_type`, then changed by calls whose preconditions hold
(the assertions are on). -/
inductive Reach {α : Type} [Inhabited α] : cbuffer α → Prop where
  | ctor_default : Reach cbuffer.ctor_default
  | ctor_capacity (capacity : Nat) : capacity < UINT_RANGE →
      Reach (cbuffer.ctor_capacity capacity)
  | ctor_range (capacity : Nat) (xs : List α) (b : cbuffer α) : capacity < UINT_RANGE →
      cbuffer.ctor_range capacity xs = .ok b → Reach b
  | ctor_copy (other b : cbuffer α) : Reach other →
      cbuffer.ctor_copy false other = .ok b → Reach b
  | operator_assign (same_object : Bool) (b other b' : cbuffer α) : Reach b → Reach other →
      cbuffer.operator_assign false same_object b other = .ok b' → Reach b'
  | swap_this (b other : cbuffer α) : Reach b → Reach other → Reach (cbuffer.swap b other).1
  | swap_other (b other : cbuffer α) : Reach b → Reach other → Reach (cbuffer.swap b other).2
  | clear (b : cbuffer α) : Reach b → Reach b.clear
  | add_tail (b : cbuffer α) (v : α) (b' : cbuffer α) : Reach b →
      b.add_tail v = .ok b' → Reach b'
  | remove_head (b b' : cbuffer α) : Reach b →
      b.remove_head false = .ok b' → Reach b'
  | remove_tail (b b' : cbuffer α) : Reach b →
      b.remove_tail false = .ok b' → Reach b'

/-! ## Predicates on buffers -/

/-- What every method keeps true of the data members. -/
structure WF {α : Type} (b : cbuffer α) : Prop where
  capacity_lt : b._capacity < UINT_RANGE
  size_le : b._currentSize ≤ b._capacity
  head_le : b._head ≤ b._capacity - 1
  tail_le : b._tail ≤ b._capacity - 1
  storage : ∀ l, b._buffer = some l → l.length = b._capacity
  null : b._buffer = none → b._capacity = 0

/-- The tail relation, for capacities up to `2^31`. -/
def TailRel {α : Type} (b : cbuffer α) : Prop :=
  b._capacity ≤ 2147483648 → 0 < b._currentSize →
    b._tail = (b._head + b._currentSize - 1) % b._capacity

/-- Two buffers with the same capacity, size, head and tail whose arrays agree
on the slots of the logical elements: either they are full and the arrays are
equal, or the head is 0 and the first `size` slots agree. -/
def Alike {α : Type} (a b : cbuffer α) : Prop :=
  WF a ∧ WF b ∧ a._capacity ≠ 0 ∧ a._capacity = b._capacity ∧
    a._currentSize = b._currentSize ∧ a._head = b._head ∧ a._tail = b._tail ∧
    ∃ la lb, a._buffer = some la ∧ b._buffer = some lb ∧
      ((a._currentSize < a._capacity ∧ a._head = 0 ∧ ∀ j, j < a._currentSize → la[j]? = lb[j]?) ∨
        (a._currentSize = a._capacity ∧ la = lb))

/-! ## Objects in one memory

Above, every object carries its array by value.  For what one object does to
another, the arrays live in one memory: a list of arrays, in which a pointer is
an index and `new` appends an array. -/

/-- The data members of an object, with `_buffer` as a pointer into the memory. -/
structure cbuffer_obj where
  _buffer : Option Nat
  _capacity : Nat
  _currentSize : Nat
  _head : Nat
  _tail : Nat
deriving DecidableEq

namespace cbuffer_obj

variable {α : Type}

/-- The object with its array read from the memory. -/
def state (m : List (List α)) (o : cbuffer_obj) : cbuffer α :=
  ⟨match o._buffer with
    | none => none
    | some p => m[p]?,
    o._capacity, o._currentSize, o._head, o._tail⟩

/-- Whether `_buffer` is `nullptr` or points to an array of the memory. -/
def live (m : List (List α)) (o : cbuffer_obj) : Bool :=
  match o._buffer with
  | none => true
  | some p => decide (p < m.length)

/-- A method `f` called on the object `o`: it runs on the state of `o`, and the
array it leaves is the array `_buffer` points to.  (No method dereferences a
pointer other than its own `_buffer`; `clear()` sets it to `nullptr`.) -/
def call (f : cbuffer α → Except Fault (cbuffer α)) (m : List (List α)) (o : cbuffer_obj) :
    Except Fault (List (List α) × cbuffer_obj) :=
  match f (o.state m) with
  | .error e => .error e
  | .ok b =>
    match o._buffer, b._buffer with
    | some p, some l =>
      .ok (m.set p l, ⟨some p, b._capacity, b._currentSize, b._head, b._tail⟩)
    | _, _ => .ok (m, ⟨none, b._capacity, b._currentSize, b._head, b._tail⟩)

/-- The copy constructor in memory: `new value_type[other._capacity]` is a new
array at the end of the memory, then the data members and the elements are
copied as in `cbuffer.ctor_copy`. -/
def copy [Inhabited α] (ndebug : Bool) (m : List (List α)) (other : cbuffer_obj) :
    Except Fault (List (List α) × cbuffer_obj) :=
  match cbuffer.ctor_copy ndebug (other.state m) with
  | .error e => .error e
  | .ok b =>
    .ok (m ++ [b._buffer.getD []],
      ⟨some m.length, b._capacity, b._currentSize, b._head, b._tail⟩)

/-- A sequence of calls on one object, stopped by the first fault. -/
def run (ndebug : Bool) : List (Op α) → List (List α) → cbuffer_obj →
    Except Fault (List (List α) × cbuffer_obj)
  | [], m, o => .ok (m, o)
  | op :: ops, m, o =>
    match call (op.apply ndebug) m o with
    | .error e => .error e
    | .ok (m', o') => run ndebug ops m' o'

end cbuffer_obj

/-! ## Slots never assigned

For elements of type `Option β` the value `none`, which is the `default` a new
array is filled with, stands for a slot never assigned. -/

/-- Whether the call stores no unset value: every call but `add_tail(none)`. -/
def Op.sets_value {β : Type} : Op (Option β) → Bool
  | .add_tail none => false
  | _ => true

/-- Every index below the size is read as a value `some _`. -/
def cbuffer.written {β : Type} (b : cbuffer (Option β)) : Prop :=
  ∀ i, i < b._currentSize → ∀ nd, ∃ v, b.operator_index nd i = .ok (some v)

/-! ## Elementary facts on the arithmetic and the storage -/

section Basics

variable {α : Type}

theorem uadd_exact {a b : Nat} (h : a + b < UINT_RANGE) : uadd a b = a + b := by
  unfold uadd; exact Nat.mod_eq_of_lt h

theorem usub_exact {a b : Nat} (hb : b ≤ a) (ha : a < UINT_RANGE) : usub a b = a - b := by
  unfold usub UINT_RANGE at *; omega

theorem usub_one_le (a : Nat) (h : 0 < a) (h' : a < UINT_RANGE) : usub a 1 = a - 1 :=
  usub_exact h h'

theorem add_mod_inj {h c i j : Nat} (hi : i < c) (hj : j < c)
    (e : (h + i) % c = (h + j) % c) : i = j := by
  have h1 : i % c = j % c := Nat.ModEq.add_left_cancel' h e
  rwa [Nat.mod_eq_of_lt hi, Nat.mod_eq_of_lt hj] at h1

theorem big_lt : 4294967295 < UINT_RANGE := by
  unfold UINT_RANGE; omega

theorem load_some (l : List α) (p : Nat) (h : p < l.length) :
    load (some l) p = .ok (l.get ⟨p, h⟩) := by
  simp [load, List.getElem?_eq_getElem h]

theorem load_set_same (l : List α) (p : Nat) (v : α) (h : p < l.length) :
    load (some (l.set p v)) p = .ok v := by
  simp [load, h]

theorem load_set_other (l : List α) (p q : Nat) (v : α) (h : p ≠ q) :
    load (some (l.set p v)) q = load (some l) q := by
  simp [load, List.getElem?_set_ne h]

theorem load_of_get (l : List α) (p : Nat) (v : α) (h : l[p]? = some v) :
    load (some l) p = .ok v := by
  simp [load, h]

end Basics

/-! ## What one call does -/

section Calls

variable {α : Type}

/-- What a successful `add_tail` did. -/
theorem add_tail_ok_inv {b b' : cbuffer α} {v : α} (h : b.add_tail v = .ok b') :
    b._capacity ≠ 0 ∧ ∃ l, b._buffer = some l ∧
      uadd b._head b._currentSize % b._capacity < l.length ∧
      b'._buffer = some (l.set (uadd b._head b._currentSize % b._capacity) v) ∧
      b'._capacity = b._capacity ∧
      b'._currentSize =
        (if b._currentSize < b._capacity then uadd b._currentSize 1 else b._currentSize) ∧
      b'._head =
        (if b._currentSize < b._capacity then b._head else uadd b._head 1 % b._capacity) ∧
      b'._tail = usub (uadd b'._head b'._currentSize) 1 % b._capacity := by
  unfold cbuffer.add_tail at h
  by_cases hc : b._capacity = 0
  · simp [hc] at h
  · refine ⟨hc, ?_⟩
    cases hb : b._buffer with
    | none => simp [hc, hb, store] at h
    | some l =>
      by_cases hp : uadd b._head b._currentSize % b._capacity < l.length
      · simp only [hc, hb, store, hp, if_true, if_false] at h
        cases h
        exact ⟨l, rfl, hp, rfl, rfl, rfl, rfl, rfl⟩
      · simp [hc, hb, store, hp] at h

/-- What a successful `remove_head` did. -/
theorem remove_head_ok_inv {nd : Bool} {b b' : cbuffer α} (h : b.remove_head nd = .ok b') :
    b._capacity ≠ 0 ∧ (nd = false → 0 < b._currentSize) ∧
      b'._buffer = b._buffer ∧ b'._capacity = b._capacity ∧
      b'._currentSize = usub b._currentSize 1 ∧
      b'._head = (if usub b._currentSize 1 = 0 then 0 else uadd b._head 1 % b._capacity) ∧
      b'._tail = (if usub b._currentSize 1 = 0 then 0 else b._tail) := by
  unfold cbuffer.remove_head at h
  by_cases ha : nd = false ∧ ¬ 0 < b._currentSize
  · rw [if_pos ha] at h; cases h
  · rw [if_neg ha] at h
    by_cases hc : b._capacity = 0
    · rw [if_pos hc] at h; cases h
    · rw [if_neg hc] at h
      refine ⟨hc, fun hnd => by_contra fun hn => ha ⟨hnd, hn⟩, ?_⟩
      by_cases hs : usub b._currentSize 1 = 0
      · simp only [hs, if_true] at h
        cases h
        simp [hs]
      · simp only [hs, if_false] at h
        cases h
        simp [hs]

/-- What a successful `remove_tail` did. -/
theorem remove_tail_ok_inv {nd : Bool} {b b' : cbuffer α} (h : b.remove_tail nd = .ok b') :
    b._capacity ≠ 0 ∧ (nd = false → 0 < b._currentSize) ∧
      b'._buffer = b._buffer ∧ b'._capacity = b._capacity ∧
      b'._currentSize = usub b._currentSize 1 ∧
      b'._head = (if usub b._currentSize 1 = 0 then 0 else b._head) ∧
      b'._tail = (if usub b._currentSize 1 = 0 then 0
                  else usub (uadd b._tail b._capacity) 1 % b._capacity) := by
  unfold cbuffer.remove_tail at h
  by_cases ha : nd = false ∧ ¬ 0 < b._currentSize
  · rw [if_pos ha] at h; cases h
  · rw [if_neg ha] at h
    by_cases hc : b._capacity = 0
    · rw [if_pos hc] at h; cases h
    · rw [if_neg hc] at h
      refine ⟨hc, fun hnd => by_contra fun hn => ha ⟨hnd, hn⟩, ?_⟩
      by_cases hs : usub b._currentSize 1 = 0
      · simp only [hs, if_true] at h
        cases h
        simp [hs]
      · simp only [hs, if_false] at h
        cases h
        simp [hs]

/-- The write `(*this)[i] = value` changes the storage only. -/
theorem assign_index_ok_inv {nd : Bool} {b b' : cbuffer α} {i : Nat} {v : α}
    (h : b.assign_index nd i v = .ok b') :
    b'._capacity = b._capacity ∧ b'._currentSize = b._currentSize ∧
      b'._head = b._head ∧ b'._tail = b._tail ∧
      ∃ l, b._buffer = some l ∧ b'._buffer = some (l.set (uadd b._head i % b._capacity) v) := by
  unfold cbuffer.assign_index at h
  by_cases ha : nd = false ∧ ¬ i < b._currentSize
  · rw [if_pos ha] at h; cases h
  · rw [if_neg ha] at h
    by_cases hc : b._capacity = 0
    · rw [if_pos hc] at h; cases h
    · rw [if_neg hc] at h
      cases hb : b._buffer with
      | none => simp [hb, store] at h
      | some l =>
        by_cases hp : uadd b._head i % b._capacity < l.length
        · simp only [hb, store, hp, if_true] at h
          cases h
          exact ⟨rfl, rfl, rfl, rfl, l, rfl, rfl⟩
        · simp [hb, store, hp] at h

/-- The result of `add_tail` on a buffer with storage for `c >= 1` slots. -/
theorem add_tail_eq (l : List α) (c n h t : Nat) (v : α) (hc : c ≠ 0) (hl : l.length = c) :
    cbuffer.add_tail ⟨some l, c, n, h, t⟩ v =
      .ok ⟨some (l.set (uadd h n % c) v), c,
        (if n < c then uadd n 1 else n),
        (if n < c then h else uadd h 1 % c),
        usub (uadd (if n < c then h else uadd h 1 % c) (if n < c then uadd n 1 else n)) 1 % c⟩ := by
  have hp : uadd h n % c < l.length := by
    rw [hl]; exact Nat.mod_lt _ (Nat.pos_of_ne_zero hc)
  unfold cbuffer.add_tail
  simp only [hc, store, hp, if_true, if_false]

/-- The result of `remove_head` under its precondition. -/
theorem remove_head_eq (nd : Bool) (buf : Option (List α)) (c n h t : Nat) (hc : c ≠ 0)
    (hn : 0 < n) :
    cbuffer.remove_head nd ⟨buf, c, n, h, t⟩ =
      .ok ⟨buf, c, usub n 1, (if usub n 1 = 0 then 0 else uadd h 1 % c),
        (if usub n 1 = 0 then 0 else t)⟩ := by
  unfold cbuffer.remove_head
  have ha : ¬ (nd = false ∧ ¬ 0 < n) := fun hh => hh.2 hn
  simp only [ha, hc, if_false]
  split <;> rfl

/-- The result of `remove_tail` under its precondition. -/
theorem remove_tail_eq (nd : Bool) (buf : Option (List α)) (c n h t : Nat) (hc : c ≠ 0)
    (hn : 0 < n) :
    cbuffer.remove_tail nd ⟨buf, c, n, h, t⟩ =
      .ok ⟨buf, c, usub n 1, (if usub n 1 = 0 then 0 else h),
        (if usub n 1 = 0 then 0 else usub (uadd t c) 1 % c)⟩ := by
  unfold cbuffer.remove_tail
  have ha : ¬ (nd = false ∧ ¬ 0 < n) := fun hh => hh.2 hn
  simp only [ha, hc, if_false]
  split <;> rfl

/-- The value read by `operator[](i)` under its precondition. -/
theorem operator_index_eq (nd : Bool) (l : List α) (c n h t i : Nat) (hc : c ≠ 0)
    (hi : i < n) :
    cbuffer.operator_index nd ⟨some l, c, n, h, t⟩ i = load (some l) (uadd h i % c) := by
  unfold cbuffer.operator_index
  have ha : ¬ (nd = false ∧ ¬ i < n) := fun hh => hh.2 hi
  simp only [ha, hc, if_false]

theorem incr_eq (buf : Option (List α)) (c i n : Nat) (hc : c ≠ 0) :
    iterator.incr ⟨buf, c, i, n⟩ = .ok ⟨buf, c, uadd i 1 % c, usub n 1⟩ := by
  unfold iterator.incr
  simp only [hc, if_false]

/-- Under its precondition the result of `remove_head` is the same in both builds. -/
theorem remove_head_build {b : cbuffer α} (hs : 0 < b._currentSize) (nd : Bool) :
    b.remove_head nd = b.remove_head false := by
  unfold cbuffer.remove_head
  have ha : ∀ x : Bool, ¬ (x = false ∧ ¬ 0 < b._currentSize) := fun _ hh => hh.2 hs
  rw [if_neg (ha nd), if_neg (ha false)]

/-- Under its precondition the result of `remove_tail` is the same in both builds. -/
theorem remove_tail_build {b : cbuffer α} (hs : 0 < b._currentSize) (nd : Bool) :
    b.remove_tail nd = b.remove_tail false := by
  unfold cbuffer.remove_tail
  have ha : ∀ x : Bool, ¬ (x = false ∧ ¬ 0 < b._currentSize) := fun _ hh => hh.2 hs
  rw [if_neg (ha nd), if_neg (ha false)]

theorem add_all_nil (b : cbuffer α) : b.add_all [] = .ok b := rfl

theorem add_all_cons {b b1 : cbuffer α} {x : α} {xs : List α} (h : b.add_tail x = .ok b1) :
    b.add_all (x :: xs) = b1.add_all xs := by
  rw [cbuffer.add_all, h]

theorem add_all_append {xs ys : List α} : ∀ {b b1 : cbuffer α}, b.add_all xs = .ok b1 →
    b.add_all (xs ++ ys) = b1.add_all ys := by
  induction xs with
  | nil =>
    intro b b1 h
    simp only [cbuffer.add_all] at h
    cases h
    rfl
  | cons x xs ih =>
    intro b b1 h
    simp only [cbuffer.add_all] at h
    cases hx : b.add_tail x with
    | error e => simp only [hx] at h; cases h
    | ok b2 =>
      simp only [hx] at h
      simp only [List.cons_append, cbuffer.add_all, hx]
      exact ih h

theorem run_nil (nd : Bool) (b : cbuffer α) : run nd [] b = .ok b := rfl

theorem run_cons {nd : Bool} {o : Op α} {os : List (Op α)} {b b1 : cbuffer α}
    (h : o.apply nd b = .ok b1) : run nd (o :: os) b = run nd os b1 := by
  rw [run, h]

theorem run_append {nd : Bool} {xs ys : List (Op α)} :
    ∀ {b b1 : cbuffer α}, run nd xs b = .ok b1 → run nd (xs ++ ys) b = run nd ys b1 := by
  induction xs with
  | nil =>
    intro b b1 h
    simp only [run] at h
    cases h
    rfl
  | cons o os ih =>
    intro b b1 h
    simp only [run] at h
    cases ho : o.apply nd b with
    | error e => simp only [ho] at h; cases h
    | ok b2 =>
      simp only [ho] at h
      simp only [List.cons_append, run, ho]
      exact ih h

theorem run_map_add_tail (nd : Bool) (xs : List α) : ∀ b : cbuffer α,
    run nd (xs.map Op.add_tail) b = b.add_all xs := by
  induction xs with
  | nil => intro b; rfl
  | cons x xs ih =>
    intro b
    simp only [List.map_cons, run, Op.apply, cbuffer.add_all]
    cases b.add_tail x with
    | error e => rfl
    | ok b1 => exact ih b1

theorem traverse_loop_done (last it : iterator α) (fuel : Nat) (h : it.count = last.count) :
    cbuffer.traverse_loop last (fuel + 1) it = some (.ok []) := by
  simp [cbuffer.traverse_loop, iterator.ne, h]

theorem traverse_loop_step (last it it' : iterator α) (v : α) (vs : List α) (fuel : Nat)
    (hne : it.count ≠ last.count) (hd : it.deref = .ok v) (hi : it.incr = .ok it')
    (hr : cbuffer.traverse_loop last fuel it' = some (.ok vs)) :
    cbuffer.traverse_loop last (fuel + 1) it = some (.ok (v :: vs)) := by
  simp [cbuffer.traverse_loop, iterator.ne, hne, hd, hi, hr]

end Calls

/-! ## The representation invariant is kept -/

section Invariant

variable {α : Type}

theorem WF.storage_ex {b : cbuffer α} (h : WF b) (hc : b._capacity ≠ 0) :
    ∃ l, b._buffer = some l ∧ l.length = b._capacity := by
  cases hb : b._buffer with
  | none => exact absurd (h.null hb) hc
  | some l => exact ⟨l, rfl, h.storage l hb⟩

/-- A well-formed buffer with storage, taken apart. -/
theorem WF.cases {b : cbuffer α} (w : WF b) (hc0 : b._capacity ≠ 0) :
    ∃ l, b = ⟨some l, b._capacity, b._currentSize, b._head, b._tail⟩ ∧
      l.length = b._capacity ∧ b._currentSize ≤ b._capacity ∧ b._head < b._capacity ∧
      b._tail < b._capacity := by
  obtain ⟨l, hl, hlen⟩ := w.storage_ex hc0
  have h1 := w.head_le
  have h2 := w.tail_le
  refine ⟨l, ?_, hlen, w.size_le, by omega, by omega⟩
  cases b
  simp only at hl
  rw [hl]

theorem wf_ctor_default : WF (cbuffer.ctor_default : cbuffer α) := by
  constructor <;> simp [cbuffer.ctor_default, UINT_RANGE]

theorem wf_clear (b : cbuffer α) : WF b.clear := by
  constructor <;> simp [cbuffer.clear, UINT_RANGE]

theorem wf_ctor_capacity [Inhabited α] (c : Nat) (hc : c < UINT_RANGE) :
    WF (cbuffer.ctor_capacity c : cbuffer α) := by
  constructor <;> simp [cbuffer.ctor_capacity, hc]

/-- With storage for `_capacity >= 1` slots `add_tail` returns. -/
theorem add_tail_total {b : cbuffer α} (h : WF b) (hc : b._capacity ≠ 0) (v : α) :
    ∃ b', b.add_tail v = .ok b' := by
  obtain ⟨l, hb, hl⟩ := h.storage_ex hc
  have hp : uadd b._head b._currentSize % b._capacity < l.length := by
    rw [hl]; exact Nat.mod_lt _ (Nat.pos_of_ne_zero hc)
  unfold cbuffer.add_tail
  simp only [hc, hb, store, hp, if_true, if_false]
  exact ⟨_, rfl⟩

theorem wf_add_tail {b b' : cbuffer α} {v : α} (h : WF b) (h' : b.add_tail v = .ok b') :
    WF b' := by
  obtain ⟨hc, l, hb, hp, e1, e2, e3, e4, e5⟩ := add_tail_ok_inv h'
  have hpos : 0 < b._capacity := Nat.pos_of_ne_zero hc
  have hl := h.storage l hb
  have hcap := h.capacity_lt
  have hsz := h.size_le
  have hhd := h.head_le
  constructor
  · rw [e2]; exact hcap
  · rw [e2, e3]
    split
    · unfold uadd UINT_RANGE at *; omega
    · exact hsz
  · rw [e2, e4]
    split
    · exact hhd
    · have := Nat.mod_lt (uadd b._head 1) hpos; omega
  · rw [e2, e5]
    have := Nat.mod_lt (usub (uadd b'._head b'._currentSize) 1) hpos; omega
  · intro l' hl'
    rw [e1] at hl'
    cases hl'
    rw [e2, List.length_set, hl]
  · intro hn
    rw [e1] at hn
    cases hn

/-- With `get_currentSize() > 0` on a well-formed buffer `remove_head` returns,
whatever the build. -/
theorem remove_head_total {b : cbuffer α} (h : WF b) (hs : 0 < b._currentSize) (nd : Bool) :
    ∃ b', b.remove_head nd = .ok b' := by
  have hc : b._capacity ≠ 0 := by have := h.size_le; omega
  unfold cbuffer.remove_head
  have ha : ¬ (nd = false ∧ ¬ 0 < b._currentSize) := fun hh => hh.2 hs
  simp only [ha, hc, if_false]
  split <;> exact ⟨_, rfl⟩

/-- With `get_currentSize() > 0` on a well-formed buffer `remove_tail` returns,
whatever the build. -/
theorem remove_tail_total {b : cbuffer α} (h : WF b) (hs : 0 < b._currentSize) (nd : Bool) :
    ∃ b', b.remove_tail nd = .ok b' := by
  have hc : b._capacity ≠ 0 := by have := h.size_le; omega
  unfold cbuffer.remove_tail
  have ha : ¬ (nd = false ∧ ¬ 0 < b._currentSize) := fun hh => hh.2 hs
  simp only [ha, hc, if_false]
  split <;> exact ⟨_, rfl⟩

theorem wf_remove_head {nd : Bool} {b b' : cbuffer α} (h : WF b) (hs : 0 < b._currentSize)
    (h' : b.remove_head nd = .ok b') : WF b' := by
  obtain ⟨hc, -, e1, e2, e3, e4, e5⟩ := remove_head_ok_inv h'
  have hpos : 0 < b._capacity := Nat.pos_of_ne_zero hc
  have hcap := h.capacity_lt
  have hsz := h.size_le
  have hsub : usub b._currentSize 1 = b._currentSize - 1 :=
    usub_one_le _ hs (by omega)
  constructor
  · rw [e2]; exact hcap
  · rw [e2, e3, hsub]; omega
  · rw [e2, e4]
    split
    · omega
    · have := Nat.mod_lt (uadd b._head 1) hpos; omega
  · rw [e2, e5]
    split
    · omega
    · exact h.tail_le
  · intro l hl
    rw [e1] at hl
    rw [e2]; exact h.storage l hl
  · intro hn
    rw [e1] at hn
    rw [e2]; exact h.null hn

theorem wf_remove_tail {nd : Bool} {b b' : cbuffer α} (h : WF b) (hs : 0 < b._currentSize)
    (h' : b.remove_tail nd = .ok b') : WF b' := by
  obtain ⟨hc, -, e1, e2, e3, e4, e5⟩ := remove_tail_ok_inv h'
  have hpos : 0 < b._capacity := Nat.pos_of_ne_zero hc
  have hcap := h.capacity_lt
  have hsz := h.size_le
  have hsub : usub b._currentSize 1 = b._currentSize - 1 :=
    usub_one_le _ hs (by omega)
  constructor
  · rw [e2]; exact hcap
  · rw [e2, e3, hsub]; omega
  · rw [e2, e4]
    split
    · omega
    · exact h.head_le
  · rw [e2, e5]
    split
    · omega
    · have := Nat.mod_lt (usub (uadd b._tail b._capacity) 1) hpos; omega
  · intro l hl
    rw [e1] at hl
    rw [e2]; exact h.storage l hl
  · intro hn
    rw [e1] at hn
    rw [e2]; exact h.null hn

theorem wf_add_all {xs : List α} : ∀ {b b' : cbuffer α}, WF b →
    b.add_all xs = .ok b' → WF b' := by
  induction xs with
  | nil =>
    intro b b' h h'
    simp only [cbuffer.add_all] at h'
    cases h'
    exact h
  | cons x xs ih =>
    intro b b' h h'
    simp only [cbuffer.add_all] at h'
    cases hx : b.add_tail x with
    | error e => rw [hx] at h'; cases h'
    | ok b1 =>
      rw [hx] at h'
      exact ih (wf_add_tail h hx) h'

theorem wf_assign_index {nd : Bool} {b b' : cbuffer α} {i : Nat} {v : α} (h : WF b)
    (h' : b.assign_index nd i v = .ok b') : WF b' := by
  obtain ⟨e1, e2, e3, e4, l, hb, hb'⟩ := assign_index_ok_inv h'
  constructor
  · rw [e1]; exact h.capacity_lt
  · rw [e1, e2]; exact h.size_le
  · rw [e1, e3]; exact h.head_le
  · rw [e1, e4]; exact h.tail_le
  · intro l' hl'
    rw [hb'] at hl'
    cases hl'
    rw [e1, List.length_set]
    exact h.storage l hb
  · intro hn
    rw [hb'] at hn
    cases hn

/-- The copy loop changes the storage only. -/
theorem copy_loop_ok_inv {nd : Bool} {other : cbuffer α} {n : Nat} :
    ∀ {i : Nat} {b b' : cbuffer α}, WF b → cbuffer.copy_loop nd other n i b = .ok b' →
      WF b' ∧ b'._capacity = b._capacity ∧ b'._currentSize = b._currentSize ∧
        b'._head = b._head ∧ b'._tail = b._tail := by
  induction n with
  | zero =>
    intro i b b' h h'
    simp only [cbuffer.copy_loop] at h'
    cases h'
    exact ⟨h, rfl, rfl, rfl, rfl⟩
  | succ n ih =>
    intro i b b' h h'
    simp only [cbuffer.copy_loop] at h'
    cases hv : other.operator_index nd i with
    | error e => rw [hv] at h'; cases h'
    | ok v =>
      simp only [hv] at h'
      cases hw : b.assign_index nd i v with
      | error e => simp only [hw] at h'; cases h'
      | ok b1 =>
        simp only [hw] at h'
        obtain ⟨e1, e2, e3, e4, -⟩ := assign_index_ok_inv hw
        obtain ⟨w, f1, f2, f3, f4⟩ := ih (wf_assign_index h hw) h'
        exact ⟨w, by rw [f1, e1], by rw [f2, e2], by rw [f3, e3], by rw [f4, e4]⟩

/-- The copy has the capacity, size, head index and tail index of the source. -/
theorem ctor_copy_ok_inv [Inhabited α] {nd : Bool} {other b : cbuffer α} (h : WF other)
    (h' : cbuffer.ctor_copy nd other = .ok b) :
    WF b ∧ b._capacity = other._capacity ∧ b._currentSize = other._currentSize ∧
      b._head = other._head ∧ b._tail = other._tail := by
  unfold cbuffer.ctor_copy at h'
  have h0 : WF (⟨some (List.replicate other._capacity default), other._capacity,
      other._currentSize, other._head, other._tail⟩ : cbuffer α) := by
    constructor
    · exact h.capacity_lt
    · exact h.size_le
    · exact h.head_le
    · exact h.tail_le
    · intro l hl
      cases hl
      simp
    · intro hn
      cases hn
  have key := copy_loop_ok_inv h0 h'
  exact key

theorem wf_operator_assign [Inhabited α] {nd same : Bool} {b other b' : cbuffer α}
    (h : WF b) (ho : WF other) (h' : cbuffer.operator_assign nd same b other = .ok b') :
    WF b' := by
  unfold cbuffer.operator_assign at h'
  cases same with
  | true =>
    simp only [if_true] at h'
    cases h'
    exact h
  | false =>
    simp only [Bool.false_eq_true, if_false] at h'
    cases hc : cbuffer.ctor_copy nd other with
    | error e => rw [hc] at h'; cases h'
    | ok tmp =>
      rw [hc] at h'
      cases h'
      exact (ctor_copy_ok_inv ho hc).1

/-- Every state an object can be in satisfies the representation invariant. -/
theorem Reach.wf [Inhabited α] {b : cbuffer α} (h : Reach b) : WF b := by
  induction h with
  | ctor_default => exact wf_ctor_default
  | ctor_capacity c hc => exact wf_ctor_capacity c hc
  | ctor_range c xs b hc hr => exact wf_add_all (wf_ctor_capacity c hc) hr
  | ctor_copy other b _ hc ih => exact (ctor_copy_ok_inv ih hc).1
  | operator_assign same b other b' _ _ ha ih1 ih2 => exact wf_operator_assign ih1 ih2 ha
  | swap_this b other _ _ _ ih2 => exact ih2
  | swap_other b other _ _ ih1 _ => exact ih1
  | clear b _ _ => exact wf_clear b
  | add_tail b v b' _ ha ih => exact wf_add_tail ih ha
  | remove_head b b' _ hr ih =>
    exact wf_remove_head ih ((remove_head_ok_inv hr).2.1 rfl) hr
  | remove_tail b b' _ hr ih =>
    exact wf_remove_tail ih ((remove_tail_ok_inv hr).2.1 rfl) hr

/-- A sequence of calls whose preconditions hold, started in a state an object
can be in, ends in such a state. -/
theorem reach_of_run [Inhabited α] {ops : List (Op α)} :
    ∀ {b b' : cbuffer α}, Reach b → run false ops b = .ok b' → Reach b' := by
  induction ops with
  | nil =>
    intro b b' h h'
    simp only [run] at h'
    cases h'
    exact h
  | cons o os ih =>
    intro b b' h h'
    simp only [run] at h'
    cases ho : o.apply false b with
    | error e => simp only [ho] at h'; cases h'
    | ok b1 =>
      simp only [ho] at h'
      refine ih ?_ h'
      cases o with
      | add_tail v => exact Reach.add_tail b v b1 h ho
      | remove_head => exact Reach.remove_head b b1 h ho
      | remove_tail => exact Reach.remove_tail b b1 h ho
      | clear =>
        simp only [Op.apply] at ho
        cases ho
        exact Reach.clear b h

/-- What holds of every state reached from `cbuffer(c)` by calls other than
`clear()`: the capacity is `c`, and an empty buffer has head and tail 0. -/
theorem run_from_ctor [Inhabited α] (c : Nat) (hc : c < UINT_RANGE) (ops : List (Op α))
    (hops : ∀ o ∈ ops, o.is_clear = false) :
    ∀ (b e : cbuffer α), WF b → b._capacity = c →
      (b._currentSize = 0 → b._head = 0 ∧ b._tail = 0) → run false ops b = .ok e →
      WF e ∧ e._capacity = c ∧ (e._currentSize = 0 → e._head = 0 ∧ e._tail = 0) := by
  induction ops with
  | nil =>
    intro b e w hcap h0 hr
    rw [run_nil] at hr
    cases hr
    exact ⟨w, hcap, h0⟩
  | cons o os ih =>
    intro b e w hcap h0 hr
    have hos : ∀ o' ∈ os, o'.is_clear = false := fun o' ho' =>
      hops o' (List.mem_cons_of_mem _ ho')
    cases ho : o.apply false b with
    | error err => rw [run, ho] at hr; cases hr
    | ok b1 =>
      rw [run_cons ho] at hr
      cases o with
      | add_tail v =>
        obtain ⟨hc0, l, -, -, -, e2, e3, -, -⟩ := add_tail_ok_inv ho
        refine ih hos b1 e (wf_add_tail w ho) (by rw [e2, hcap]) ?_ hr
        intro hz
        exfalso
        have := w.size_le
        have := w.capacity_lt
        rw [e3] at hz
        by_cases hlt : b._currentSize < b._capacity
        · rw [if_pos hlt, uadd_exact (by omega)] at hz
          omega
        · rw [if_neg hlt] at hz
          omega
      | remove_head =>
        obtain ⟨-, hpre, -, e2, e3, e4, e5⟩ := remove_head_ok_inv ho
        refine ih hos b1 e (wf_remove_head w (hpre rfl) ho) (by rw [e2, hcap]) ?_ hr
        intro hz
        rw [e3] at hz
        rw [e4, e5, if_pos hz, if_pos hz]
        exact ⟨rfl, rfl⟩
      | remove_tail =>
        obtain ⟨-, hpre, -, e2, e3, e4, e5⟩ := remove_tail_ok_inv ho
        refine ih hos b1 e (wf_remove_tail w (hpre rfl) ho) (by rw [e2, hcap]) ?_ hr
        intro hz
        rw [e3] at hz
        rw [e4, e5, if_pos hz, if_pos hz]
        exact ⟨rfl, rfl⟩
      | clear =>
        have := hops Op.clear (List.mem_cons_self _ _)
        simp [Op.is_clear] at this

end Invariant

/-! ## Filling and emptying without wraparound -/

section Filling

variable {α : Type}

/-- The call `add_tail` on a buffer that is not full and whose elements do not reach the
end of the array: the value goes to slot `h + n`. -/
theorem add_tail_grow (l : List α) (c n h t : Nat) (v : α) (hl : l.length = c)
    (hh : h + n < c) (hc : c < UINT_RANGE) :
    cbuffer.add_tail ⟨some l, c, n, h, t⟩ v = .ok ⟨some (l.set (h + n) v), c, n + 1, h, h + n⟩ := by
  have hn : n < c := by omega
  rw [add_tail_eq l c n h t v (by omega) hl]
  have e1 : uadd h n = h + n := uadd_exact (by omega)
  have e2 : uadd n 1 = n + 1 := uadd_exact (by omega)
  have e3 : uadd h (n + 1) = h + n + 1 := by rw [uadd_exact (by omega)]; omega
  have e4 : usub (h + n + 1) 1 = h + n := by rw [usub_exact (by omega) (by omega)]; omega
  simp only [hn, if_true, e1, e2, e3, e4, Nat.mod_eq_of_lt hh]

/-- Filling: `add_tail` of the values `ys` on a buffer with head 0 whose suffix
of free slots is long enough puts them after the elements already there. -/
theorem add_all_fill [Inhabited α] (c : Nat) (hc : c < UINT_RANGE) (ys : List α) :
    ∀ (pre rest : List α) (t : Nat), pre.length + rest.length = c → ys.length ≤ rest.length →
      cbuffer.add_all ⟨some (pre ++ rest), c, pre.length, 0, t⟩ ys =
        .ok ⟨some (pre ++ ys ++ rest.drop ys.length), c, pre.length + ys.length, 0,
          if ys.length = 0 then t else pre.length + ys.length - 1⟩ := by
  induction ys with
  | nil =>
    intro pre rest t _ _
    simp [cbuffer.add_all]
  | cons y ys ih =>
    intro pre rest t h1 h2
    cases rest with
    | nil => simp at h2
    | cons r rest =>
      simp only [List.length_cons] at h1 h2
      have hl : (pre ++ r :: rest).length = c := by simp; omega
      simp only [cbuffer.add_all]
      rw [add_tail_grow _ c pre.length 0 t y hl (by omega) hc]
      have hset : (pre ++ r :: rest).set (0 + pre.length) y = (pre ++ [y]) ++ rest := by
        simp [List.set_append_right]
      rw [hset]
      dsimp only
      have := ih (pre ++ [y]) rest (0 + pre.length) (by simp; omega) (by omega)
      simp only [List.length_append, List.length_singleton] at this
      rw [this]
      simp
      omega

/-- After `cbuffer(c)` followed by `add_tail` of `c` values the array holds them in
order, head 0. -/
theorem add_all_ctor_full [Inhabited α] (c : Nat) (hc : c < UINT_RANGE) (ys : List α)
    (hl : ys.length = c) :
    cbuffer.add_all (cbuffer.ctor_capacity c) ys = .ok ⟨some ys, c, c, 0, c - 1⟩ := by
  have h := add_all_fill c hc ys [] (List.replicate c default) 0 (by simp) (by simp [hl])
  simp only [List.nil_append, List.length_nil] at h
  unfold cbuffer.ctor_capacity
  rw [h]
  have hd : List.drop ys.length (List.replicate c (default : α)) = [] := by
    simp [hl]
  rw [hd, hl]
  simp
  intro h0
  omega

/-- Removing `j` heads from a buffer with more than `j` elements that do not
reach the end of the array. -/
theorem run_remove_heads (buf : Option (List α)) (c t : Nat) (hc : c < UINT_RANGE) :
    ∀ (j n h : Nat), j < n → n ≤ c → h + j < c →
      run false (List.replicate j Op.remove_head) (⟨buf, c, n, h, t⟩ : cbuffer α) =
        .ok ⟨buf, c, n - j, h + j, t⟩ := by
  intro j
  induction j with
  | zero => intro n h _ _ _; rfl
  | succ j ih =>
    intro n h h1 h2 h3
    simp only [List.replicate_succ, run, Op.apply]
    rw [remove_head_eq false buf c n h t (by omega) (by omega)]
    have e1 : usub n 1 = n - 1 := usub_exact (by omega) (by omega)
    have e2 : uadd h 1 = h + 1 := uadd_exact (by omega)
    have e3 : ¬ (n - 1 = 0) := by omega
    simp only [e1, e2, e3, if_false, Nat.mod_eq_of_lt (show h + 1 < c by omega)]
    rw [ih (n - 1) (h + 1) (by omega) (by omega) (by omega)]
    have e4 : n - 1 - j = n - (j + 1) := by omega
    have e5 : h + 1 + j = h + (j + 1) := by omega
    rw [e4, e5]

end Filling

/-! ## Capacities up to `2^31`: no sum wraps -/

section Small

variable {α : Type}

/-- With capacity at most `2^31` the sums of `add_tail` do not wrap. -/
theorem add_tail_exact (l : List α) (c n h t : Nat) (v : α) (hc0 : c ≠ 0)
    (hc : c ≤ 2147483648) (hl : l.length = c) (hn : n ≤ c) (hh : h < c) :
    cbuffer.add_tail ⟨some l, c, n, h, t⟩ v =
      .ok ⟨some (l.set ((h + n) % c) v), c,
        (if n < c then n + 1 else n),
        (if n < c then h else (h + 1) % c),
        ((if n < c then h else (h + 1) % c) + (if n < c then n + 1 else n) - 1) % c⟩ := by
  rw [add_tail_eq l c n h t v hc0 hl]
  have e1 : uadd h n = h + n := uadd_exact (by unfold UINT_RANGE; omega)
  have e2 : uadd n 1 = n + 1 := uadd_exact (by unfold UINT_RANGE; omega)
  have e3 : uadd h 1 = h + 1 := uadd_exact (by unfold UINT_RANGE; omega)
  rw [e1, e2, e3]
  have hm : (h + 1) % c < c := Nat.mod_lt _ (Nat.pos_of_ne_zero hc0)
  by_cases hlt : n < c
  · simp only [hlt, if_true]
    rw [uadd_exact (by unfold UINT_RANGE; omega),
      usub_exact (by omega) (by unfold UINT_RANGE; omega)]
  · simp only [hlt, if_false]
    rw [uadd_exact (by unfold UINT_RANGE; omega),
      usub_exact (by omega) (by unfold UINT_RANGE; omega)]

theorem operator_index_load (nd : Bool) (l : List α) (c n h t i : Nat) (hc0 : c ≠ 0)
    (hc : c ≤ 2147483648) (hn : n ≤ c) (hh : h < c) (hi : i < n) :
    cbuffer.operator_index nd ⟨some l, c, n, h, t⟩ i = load (some l) ((h + i) % c) := by
  rw [operator_index_eq nd l c n h t i hc0 hi, uadd_exact (by unfold UINT_RANGE; omega)]

/-- Postcondition of `add_tail` for capacities from 1 to `2^31`. -/
theorem add_tail_post (b : cbuffer α) (v : α) (w : WF b) (hc0 : 1 ≤ b._capacity)
    (hc : b._capacity ≤ 2147483648) (nd : Bool) :
    ∃ b', b.add_tail v = .ok b' ∧ b'._capacity = b._capacity ∧
      (b._currentSize < b._capacity →
        b'._currentSize = b._currentSize + 1 ∧ b'._head = b._head ∧
        (∀ i, i < b._currentSize → b'.operator_index nd i = b.operator_index nd i) ∧
        b'.operator_index nd b._currentSize = .ok v) ∧
      (b._currentSize = b._capacity →
        b'._currentSize = b._capacity ∧ b'._head = (b._head + 1) % b._capacity ∧
        (∀ i, i + 1 < b._currentSize →
          b'.operator_index nd i = b.operator_index nd (i + 1)) ∧
        b'.operator_index nd (b._currentSize - 1) = .ok v) ∧
      b'._tail = (b'._head + b'._currentSize - 1) % b'._capacity ∧
      b'.get_tail nd = .ok v := by
  obtain ⟨l, hb, hl, hn, hh, -⟩ := w.cases (by omega)
  generalize b._capacity = c at *
  generalize b._currentSize = n at *
  generalize b._head = h at *
  generalize b._tail = t at *
  subst hb
  have hc0' : c ≠ 0 := by omega
  have hpos : 0 < c := by omega
  rw [add_tail_exact l c n h t v hc0' hc hl hn hh]
  refine ⟨_, rfl, rfl, ?_, ?_, rfl, ?_⟩
  · intro hlt
    simp only [hlt, if_true]
    have hp : (h + n) % c < l.length := by rw [hl]; exact Nat.mod_lt _ hpos
    refine ⟨trivial, trivial, ?_, ?_⟩
    · intro i hi
      rw [operator_index_load nd _ c (n + 1) h _ i hc0' hc (by omega) hh (by omega),
        operator_index_load nd _ c n h _ i hc0' hc hn hh hi]
      apply load_set_other
      intro e
      have := add_mod_inj (by omega) (by omega) e
      omega
    · rw [operator_index_load nd _ c (n + 1) h _ n hc0' hc (by omega) hh (by omega)]
      exact load_set_same _ _ _ hp
  · intro hfull
    subst hfull
    simp only [Nat.lt_irrefl, if_false]
    have hm : (h + 1) % n < n := Nat.mod_lt _ hpos
    have hp : (h + n) % n = h := by rw [Nat.add_mod_right, Nat.mod_eq_of_lt hh]
    refine ⟨trivial, trivial, ?_, ?_⟩
    · intro i hi
      rw [operator_index_load nd _ n n _ _ i hc0' hc (le_refl _) hm (by omega),
        operator_index_load nd _ n n h _ (i + 1) hc0' hc (le_refl _) hh hi,
        Nat.mod_add_mod, hp, Nat.add_assoc, Nat.add_comm 1 i]
      apply load_set_other
      intro e
      have e' : (h + 0) % n = (h + (i + 1)) % n := by
        rw [Nat.add_zero, Nat.mod_eq_of_lt hh]; exact e
      have := add_mod_inj (by omega) (by omega) e'
      omega
    · rw [operator_index_load nd _ n n _ _ (n - 1) hc0' hc (le_refl _) hm (by omega),
        Nat.mod_add_mod]
      have e : h + 1 + (n - 1) = h + n := by omega
      rw [e]
      exact load_set_same _ _ _ (by rw [hl]; exact Nat.mod_lt _ hpos)
  · unfold cbuffer.get_tail
    by_cases hlt : n < c
    · simp only [hlt, if_true]
      rw [usub_exact (by omega) (by unfold UINT_RANGE; omega), Nat.add_sub_cancel,
        operator_index_load nd _ c (n + 1) h _ n hc0' hc (by omega) hh (by omega)]
      exact load_set_same _ _ _ (by rw [hl]; exact Nat.mod_lt _ hpos)
    · simp only [hlt, if_false]
      have hnc : n = c := by omega
      subst hnc
      have hm : (h + 1) % n < n := Nat.mod_lt _ hpos
      rw [usub_exact (by omega) (by unfold UINT_RANGE; omega),
        operator_index_load nd _ n n _ _ (n - 1) hc0' hc (le_refl _) hm (by omega),
        Nat.mod_add_mod]
      have e : h + 1 + (n - 1) = h + n := by omega
      rw [e]
      exact load_set_same _ _ _ (by rw [hl]; exact Nat.mod_lt _ hpos)

/-- Postcondition of `remove_head` for capacities up to `2^31`. -/
theorem remove_head_post (b : cbuffer α) (w : WF b) (hc : b._capacity ≤ 2147483648)
    (hs : 0 < b._currentSize) (nd nd' : Bool) :
    ∃ b', b.remove_head nd = .ok b' ∧ b'._currentSize = b._currentSize - 1 ∧
      b'._capacity = b._capacity ∧
      (∀ i, i + 1 < b._currentSize →
        b'.operator_index nd' i = b.operator_index nd' (i + 1)) ∧
      (b._currentSize - 1 = 0 → b'._head = 0 ∧ b'._tail = 0) ∧
      (b._currentSize - 1 ≠ 0 → b'._head = (b._head + 1) % b._capacity) := by
  have hc0 : b._capacity ≠ 0 := by have := w.size_le; omega
  obtain ⟨l, hb, hl, hn, hh, -⟩ := w.cases hc0
  generalize b._capacity = c at *
  generalize b._currentSize = n at *
  generalize b._head = h at *
  generalize b._tail = t at *
  subst hb
  have hpos : 0 < c := by omega
  rw [remove_head_eq nd _ c n h t hc0 hs, usub_exact hs (by unfold UINT_RANGE; omega),
    uadd_exact (by unfold UINT_RANGE; omega)]
  have hm : (h + 1) % c < c := Nat.mod_lt _ hpos
  by_cases h1 : n - 1 = 0
  · rw [if_pos h1, if_pos h1]
    exact ⟨_, rfl, rfl, rfl, fun i hi => by omega, fun _ => ⟨rfl, rfl⟩, fun hne => absurd h1 hne⟩
  · rw [if_neg h1, if_neg h1]
    refine ⟨_, rfl, rfl, rfl, ?_, fun h0 => absurd h0 h1, fun _ => rfl⟩
    intro i hi
    rw [operator_index_load nd' _ c (n - 1) _ _ i hc0 hc (by omega) hm (by omega),
      operator_index_load nd' _ c n h _ (i + 1) hc0 hc hn hh hi,
      Nat.mod_add_mod, Nat.add_assoc, Nat.add_comm 1 i]

/-- Postcondition of `remove_tail` for capacities up to `2^31`. -/
theorem remove_tail_post (b : cbuffer α) (w : WF b) (hc : b._capacity ≤ 2147483648)
    (hs : 0 < b._currentSize) (nd nd' : Bool) :
    ∃ b', b.remove_tail nd = .ok b' ∧ b'._currentSize = b._currentSize - 1 ∧
      b'._capacity = b._capacity ∧
      (∀ i, i < b._currentSize - 1 → b'.operator_index nd' i = b.operator_index nd' i) ∧
      (b._currentSize - 1 = 0 → b'._head = 0 ∧ b'._tail = 0) ∧
      (b._currentSize - 1 ≠ 0 →
        b'._head = b._head ∧ b'._tail = (b._tail + b._capacity - 1) % b._capacity ∧
        b'.get_tail nd' = b.operator_index nd' (b._currentSize - 2)) := by
  have hc0 : b._capacity ≠ 0 := by have := w.size_le; omega
  obtain ⟨l, hb, hl, hn, hh, ht⟩ := w.cases hc0
  generalize b._capacity = c at *
  generalize b._currentSize = n at *
  generalize b._head = h at *
  generalize b._tail = t at *
  subst hb
  have hpos : 0 < c := by omega
  rw [remove_tail_eq nd _ c n h t hc0 hs, usub_exact hs (by unfold UINT_RANGE; omega),
    uadd_exact (by unfold UINT_RANGE; omega),
    usub_exact (by omega) (by unfold UINT_RANGE; omega)]
  by_cases h1 : n - 1 = 0
  · rw [if_pos h1, if_pos h1]
    exact ⟨_, rfl, rfl, rfl, fun i hi => by omega, fun _ => ⟨rfl, rfl⟩, fun hne => absurd h1 hne⟩
  · rw [if_neg h1, if_neg h1]
    refine ⟨_, rfl, rfl, rfl, ?_, fun h0 => absurd h0 h1, fun _ => ⟨rfl, rfl, ?_⟩⟩
    · intro i hi
      rw [operator_index_load nd' _ c (n - 1) h _ i hc0 hc (by omega) hh hi,
        operator_index_load nd' _ c n h _ i hc0 hc hn hh (by omega)]
    · unfold cbuffer.get_tail
      have e : usub (n - 1) 1 = n - 2 := by
        rw [usub_exact (by omega) (by unfold UINT_RANGE; omega)]; omega
      simp only [e]
      rw [operator_index_load nd' _ c (n - 1) h _ (n - 2) hc0 hc (by omega) hh (by omega),
        operator_index_load nd' _ c n h _ (n - 2) hc0 hc hn hh (by omega)]

theorem tailrel_add_tail {b b' : cbuffer α} {v : α} (w : WF b) (h : b.add_tail v = .ok b') :
    TailRel b' := by
  intro hc hs
  have w' := wf_add_tail w h
  obtain ⟨hc0, l, -, -, -, e2, -, -, e5⟩ := add_tail_ok_inv h
  have h1 := w'.head_le
  have h2 := w'.size_le
  rw [e2] at hc h1 h2 ⊢
  rw [e5, uadd_exact (by unfold UINT_RANGE; omega),
    usub_exact (by omega) (by unfold UINT_RANGE; omega)]

theorem tailrel_add_all {xs : List α} : ∀ {b b' : cbuffer α}, WF b → TailRel b →
    b.add_all xs = .ok b' → TailRel b' := by
  induction xs with
  | nil =>
    intro b b' _ t h
    rw [add_all_nil] at h
    cases h
    exact t
  | cons x xs ih =>
    intro b b' w _ h
    cases hx : b.add_tail x with
    | error e => rw [cbuffer.add_all, hx] at h; cases h
    | ok b1 =>
      rw [add_all_cons hx] at h
      exact ih (wf_add_tail w hx) (tailrel_add_tail w hx) h

theorem tailrel_remove_head {nd : Bool} {b b' : cbuffer α} (w : WF b) (t : TailRel b)
    (hs : 0 < b._currentSize) (h : b.remove_head nd = .ok b') : TailRel b' := by
  intro hc hs'
  obtain ⟨hc0, -, -, e2, e3, e4, e5⟩ := remove_head_ok_inv h
  have h1 := w.head_le
  have h2 := w.size_le
  rw [e2] at hc ⊢
  have e : usub b._currentSize 1 = b._currentSize - 1 :=
    usub_exact hs (by unfold UINT_RANGE; omega)
  rw [e] at e3 e4 e5
  rw [e3] at hs' ⊢
  have hne : ¬ (b._currentSize - 1 = 0) := by omega
  rw [e4, e5, if_neg hne, if_neg hne, t hc hs, uadd_exact (by unfold UINT_RANGE; omega)]
  have k : (b._head + 1) % b._capacity + (b._currentSize - 1) - 1 =
      (b._head + 1) % b._capacity + (b._currentSize - 2) := by omega
  rw [k, Nat.mod_add_mod]
  have k3 : b._head + 1 + (b._currentSize - 2) = b._head + b._currentSize - 1 := by omega
  rw [k3]

theorem tailrel_remove_tail {nd : Bool} {b b' : cbuffer α} (w : WF b) (t : TailRel b)
    (hs : 0 < b._currentSize) (h : b.remove_tail nd = .ok b') : TailRel b' := by
  intro hc hs'
  obtain ⟨hc0, -, -, e2, e3, e4, e5⟩ := remove_tail_ok_inv h
  have h1 := w.head_le
  have h2 := w.size_le
  have h3 := w.tail_le
  rw [e2] at hc ⊢
  have e : usub b._currentSize 1 = b._currentSize - 1 :=
    usub_exact hs (by unfold UINT_RANGE; omega)
  rw [e] at e3 e4 e5
  rw [e3] at hs' ⊢
  have hne : ¬ (b._currentSize - 1 = 0) := by omega
  rw [e4, e5, if_neg hne, if_neg hne, uadd_exact (by unfold UINT_RANGE; omega),
    usub_exact (by omega) (by unfold UINT_RANGE; omega), t hc hs]
  have k : (b._head + b._currentSize - 1) % b._capacity + b._capacity - 1 =
      (b._head + b._currentSize - 1) % b._capacity + (b._capacity - 1) := by omega
  rw [k, Nat.mod_add_mod]
  have k2 : b._head + b._currentSize - 1 + (b._capacity - 1) =
      b._head + (b._currentSize - 1) - 1 + b._capacity := by omega
  rw [k2, Nat.add_mod_right]

theorem Reach.tailrel [Inhabited α] {b : cbuffer α} (h : Reach b) : TailRel b := by
  induction h with
  | ctor_default => intro _ hs; exact absurd hs (Nat.lt_irrefl 0)
  | ctor_capacity c hc => intro _ hs; exact absurd hs (Nat.lt_irrefl 0)
  | ctor_range c xs b hc hr =>
    exact tailrel_add_all (wf_ctor_capacity c hc)
      (fun _ hs => absurd hs (Nat.lt_irrefl 0)) hr
  | ctor_copy other b ho hc ih =>
    obtain ⟨-, e1, e2, e3, e4⟩ := ctor_copy_ok_inv ho.wf hc
    intro h1 h2
    rw [e1] at h1 ⊢
    rw [e2] at h2 ⊢
    rw [e3, e4]
    exact ih h1 h2
  | operator_assign same b other b' hb ho ha ih1 ih2 =>
    unfold cbuffer.operator_assign at ha
    cases same with
    | true =>
      simp only [if_true] at ha
      cases ha
      exact ih1
    | false =>
      simp only [Bool.false_eq_true, if_false] at ha
      cases hc : cbuffer.ctor_copy false other with
      | error e => rw [hc] at ha; cases ha
      | ok tmp =>
        rw [hc] at ha
        cases ha
        obtain ⟨-, e1, e2, e3, e4⟩ := ctor_copy_ok_inv ho.wf hc
        intro h1 h2
        simp only [cbuffer.swap] at h1 h2 ⊢
        rw [e1] at h1 ⊢
        rw [e2] at h2 ⊢
        rw [e3, e4]
        exact ih2 h1 h2
  | swap_this b other _ _ _ ih2 => exact ih2
  | swap_other b other _ _ ih1 _ => exact ih1
  | clear b _ _ => intro _ hs; exact absurd hs (Nat.lt_irrefl 0)
  | add_tail b v b' hb ha _ => exact tailrel_add_tail hb.wf ha
  | remove_head b b' hb hr ih =>
    exact tailrel_remove_head hb.wf ih ((remove_head_ok_inv hr).2.1 rfl) hr
  | remove_tail b b' hb hr ih =>
    exact tailrel_remove_tail hb.wf ih ((remove_tail_ok_inv hr).2.1 rfl) hr

/-- The loop from an iterator at slot `idx` with `n` elements left yields the
`n` slots `idx, idx + 1, ...` modulo the capacity. -/
theorem traverse_loop_exact (l : List α) (c : Nat) (hc0 : c ≠ 0) (hc : c < UINT_RANGE)
    (hl : l.length = c) (last : iterator α) (hlast : last.count = 0) :
    ∀ (n idx fuel : Nat), n < UINT_RANGE → idx < c → n < fuel →
      ∃ vs, cbuffer.traverse_loop last fuel ⟨some l, c, idx, n⟩ = some (.ok vs) ∧
        vs.length = n ∧ ∀ k, k < n → vs[k]? = l[(idx + k) % c]? := by
  intro n
  induction n with
  | zero =>
    intro idx fuel _ _ hf
    obtain ⟨f, rfl⟩ : ∃ f, fuel = f + 1 := ⟨fuel - 1, by omega⟩
    exact ⟨[], traverse_loop_done _ _ _ (by rw [hlast]), rfl, fun k hk => by omega⟩
  | succ n ih =>
    intro idx fuel hn hidx hf
    obtain ⟨f, rfl⟩ : ∃ f, fuel = f + 1 := ⟨fuel - 1, by omega⟩
    have hpos : 0 < c := Nat.pos_of_ne_zero hc0
    have hm : (idx + 1) % c < c := Nat.mod_lt _ hpos
    obtain ⟨vs, hvs, hlen, hget⟩ := ih ((idx + 1) % c) f (by omega) hm (by omega)
    have hd : iterator.deref ⟨some l, c, idx, n + 1⟩ = .ok (l.get ⟨idx, by omega⟩) :=
      load_some l idx (by omega)
    have hi : iterator.incr ⟨some l, c, idx, n + 1⟩ = .ok ⟨some l, c, (idx + 1) % c, n⟩ := by
      rw [incr_eq _ _ _ _ hc0, uadd_exact (by omega), usub_exact (by omega) hn,
        Nat.add_sub_cancel]
    refine ⟨l.get ⟨idx, by omega⟩ :: vs,
      traverse_loop_step _ _ _ _ _ _ (by rw [hlast]; exact Nat.succ_ne_zero n) hd hi hvs,
      by rw [List.length_cons, hlen], ?_⟩
    intro k hk
    cases k with
    | zero =>
      have e : (idx + 0) % c = idx := Nat.mod_eq_of_lt hidx
      rw [e, List.getElem?_cons_zero]
      exact (List.getElem?_eq_getElem (by omega)).symm
    | succ k =>
      rw [List.getElem?_cons_succ, hget k (by omega), Nat.mod_add_mod]
      congr 2
      omega

/-- Traversal for capacities up to `2^31`: with more fuel than elements the loop
from `begin()` to `end()` ends, performs `get_currentSize()` dereferences and
yields `operator[](0)`, ..., `operator[](size - 1)`. -/
theorem traverse_exact (b : cbuffer α) (w : WF b) (hc : b._capacity ≤ 2147483648)
    (fuel : Nat) (hf : b._currentSize < fuel) :
    ∃ vs, b.traverse fuel = some (.ok vs) ∧ vs.length = b.get_currentSize ∧
      ∀ i, i < b.get_currentSize → ∀ nd, ∃ v,
        vs[i]? = some v ∧ b.operator_index nd i = .ok v := by
  unfold cbuffer.get_currentSize
  by_cases hc0 : b._capacity = 0
  · have hs : b._currentSize = 0 := by have := w.size_le; omega
    obtain ⟨f, rfl⟩ : ∃ f, fuel = f + 1 := ⟨fuel - 1, by omega⟩
    refine ⟨[], ?_, by rw [hs]; rfl, fun i hi => by omega⟩
    unfold cbuffer.traverse
    exact traverse_loop_done _ _ _ (by simp [cbuffer.begin, cbuffer.end_, hs])
  · obtain ⟨l, hb, hl, hn, hh, -⟩ := w.cases hc0
    generalize b._capacity = c at *
    generalize b._currentSize = n at *
    generalize b._head = h at *
    generalize b._tail = t at *
    subst hb
    obtain ⟨vs, hvs, hlen, hget⟩ := traverse_loop_exact l c hc0
      (by unfold UINT_RANGE; omega) hl (cbuffer.end_ ⟨some l, c, n, h, t⟩) rfl n h fuel
      (by unfold UINT_RANGE; omega) hh hf
    refine ⟨vs, hvs, hlen, ?_⟩
    intro i hi nd
    have hp : (h + i) % c < l.length := by
      rw [hl]; exact Nat.mod_lt _ (Nat.pos_of_ne_zero hc0)
    refine ⟨l.get ⟨_, hp⟩, ?_, ?_⟩
    · rw [hget i hi]
      exact List.getElem?_eq_getElem hp
    · rw [operator_index_load nd l c n h t i hc0 hc hn hh hi]
      exact load_some l _ hp

/-- FIFO with overwrite for capacities from 1 to `2^31`: after `add_tail` of
every element of `xs` on `cbuffer(c)` the size is `min c |xs|` and
`operator[](i)` is the element of `xs` at `|xs| - size + i`. -/
theorem add_all_fifo [Inhabited α] (c : Nat) (hc1 : 1 ≤ c) (hc : c ≤ 2147483648)
    (xs : List α) :
    ∃ b, cbuffer.add_all (cbuffer.ctor_capacity c) xs = .ok b ∧ WF b ∧ b._capacity = c ∧
      b._currentSize = min c xs.length ∧
      ∀ i, i < b._currentSize → ∀ nd, ∃ v,
        xs[xs.length - b._currentSize + i]? = some v ∧ b.operator_index nd i = .ok v := by
  induction xs using List.reverseRecOn with
  | nil =>
    refine ⟨_, rfl, wf_ctor_capacity c (by unfold UINT_RANGE; omega), rfl, ?_, ?_⟩
    · simp [cbuffer.ctor_capacity]
    · intro i hi
      simp [cbuffer.ctor_capacity] at hi
  | append_singleton xs x ih =>
    obtain ⟨b, hb, w, hcap, hsz, hget⟩ := ih
    obtain ⟨b', hb', e1, hgrow, hfull, -, -⟩ :=
      add_tail_post b x w (by omega) (by omega) false
    refine ⟨b', by rw [add_all_append hb, add_all_cons hb', add_all_nil],
      wf_add_tail w hb', by rw [e1, hcap], ?_, ?_⟩
    · by_cases hlt : b._currentSize < b._capacity
      · rw [(hgrow hlt).1, hsz, List.length_append, List.length_singleton]
        omega
      · have hfl : b._currentSize = b._capacity := by have := w.size_le; omega
        rw [(hfull hfl).1, List.length_append, List.length_singleton]
        omega
    · intro i hi nd
      obtain ⟨b2, hb2, -, hgrow2, hfull2, -, -⟩ :=
        add_tail_post b x w (by omega) (by omega) nd
      rw [hb'] at hb2
      cases hb2
      by_cases hlt : b._currentSize < b._capacity
      · obtain ⟨s1, -, hold, hnew⟩ := hgrow2 hlt
        have hlen : b._currentSize = xs.length := by omega
        rw [s1] at hi ⊢
        by_cases hin : i < b._currentSize
        · obtain ⟨v, hv, hv'⟩ := hget i hin nd
          refine ⟨v, ?_, by rw [hold i hin]; exact hv'⟩
          rw [List.length_append, List.length_singleton,
            List.getElem?_append_left (by omega)]
          rw [← hv]
          congr 1
          omega
        · have hie : i = b._currentSize := by omega
          subst hie
          refine ⟨x, ?_, hnew⟩
          rw [List.length_append, List.length_singleton,
            List.getElem?_append_right (by omega)]
          have e : xs.length + 1 - (b._currentSize + 1) + b._currentSize - xs.length = 0 := by
            omega
          rw [e]
          rfl
      · have hfl : b._currentSize = b._capacity := by have := w.size_le; omega
        obtain ⟨s1, -, hold, hnew⟩ := hfull2 hfl
        have hlen : b._capacity ≤ xs.length := by omega
        rw [s1] at hi ⊢
        by_cases hin : i + 1 < b._currentSize
        · obtain ⟨v, hv, hv'⟩ := hget (i + 1) hin nd
          refine ⟨v, ?_, by rw [hold i hin]; exact hv'⟩
          rw [List.length_append, List.length_singleton,
            List.getElem?_append_left (by omega)]
          rw [← hv]
          congr 1
          omega
        · have hie : i = b._currentSize - 1 := by omega
          subst hie
          refine ⟨x, ?_, hnew⟩
          rw [List.length_append, List.length_singleton,
            List.getElem?_append_right (by omega)]
          have e : xs.length + 1 - b._capacity + (b._currentSize - 1) - xs.length = 0 := by
            omega
          rw [e]
          rfl

/-- FIFO with overwrite for capacities from 1 to `2^31`: after `add_tail` of the
`c + k` elements of `xs` on `cbuffer(c)` the size is `c` and `operator[](i)` is
`xs[k + i]` for every `i < c`. -/
theorem fifo_small_capacity [Inhabited α] (c k : Nat) (hc1 : 1 ≤ c) (hc : c ≤ 2147483648)
    (xs : List α) (hlen : xs.length = c + k) :
    ∃ b, cbuffer.add_all (cbuffer.ctor_capacity c) xs = .ok b ∧ b.get_currentSize = c ∧
      ∀ i, i < c → ∀ nd, ∃ v, xs[k + i]? = some v ∧ b.operator_index nd i = .ok v := by
  obtain ⟨b, hb, -, -, hsz, hget⟩ := add_all_fifo c hc1 hc xs
  have hsz' : b._currentSize = c := by rw [hsz, hlen]; omega
  refine ⟨b, hb, hsz', ?_⟩
  intro i hi nd
  obtain ⟨v, hv, hv'⟩ := hget i (by omega) nd
  refine ⟨v, ?_, hv'⟩
  rw [← hv]
  congr 1
  omega

/-- Index invariant for capacities up to `2^31`: in every state an object can be
in, if the size is positive then `head < capacity` and
`tail == (head + size - 1) mod capacity`. -/
theorem index_invariant_small_capacity [Inhabited α] (b : cbuffer α) (h : Reach b)
    (hc : b._capacity ≤ 2147483648) (hs : 0 < b._currentSize) :
    b._head < b._capacity ∧ b._tail = (b._head + b._currentSize - 1) % b._capacity := by
  have w := h.wf
  have h1 := w.head_le
  have h2 := w.size_le
  exact ⟨by omega, h.tailrel hc hs⟩

end Small

/-! ## Buffers that behave alike -/

section Similar

variable {α : Type}

theorem alike_add_tail {a b : cbuffer α} (h : Alike a b) (v : α) :
    ∃ a' b', a.add_tail v = .ok a' ∧ b.add_tail v = .ok b' ∧ Alike a' b' := by
  obtain ⟨wa, wb, hc0, ecap, esz, ehd, etl, la, lb, hla, hlb, hcase⟩ := h
  obtain ⟨a', ha'⟩ := add_tail_total wa hc0 v
  obtain ⟨b', hb'⟩ := add_tail_total wb (by rw [← ecap]; exact hc0) v
  refine ⟨a', b', ha', hb', wf_add_tail wa ha', wf_add_tail wb hb', ?_⟩
  obtain ⟨-, la0, hla0, hpa, a1, a2, a3, a4, a5⟩ := add_tail_ok_inv ha'
  obtain ⟨-, lb0, hlb0, hpb, b1, b2, b3, b4, b5⟩ := add_tail_ok_inv hb'
  rw [hla] at hla0; cases hla0
  rw [hlb] at hlb0; cases hlb0
  have hlen_a : la.length = a._capacity := wa.storage la hla
  have hlen_b : lb.length = a._capacity := by rw [ecap]; exact wb.storage lb hlb
  have hcap := wa.capacity_lt
  have e3 : a'._currentSize = b'._currentSize := by rw [a3, b3, ← esz, ← ecap]
  have e4 : a'._head = b'._head := by rw [a4, b4, ← esz, ← ecap, ← ehd]
  have e5 : a'._tail = b'._tail := by rw [a5, b5, e3, e4, ecap]
  refine ⟨by rw [a2]; exact hc0, by rw [a2, b2]; exact ecap, e3, e4, e5, _, _, a1, b1, ?_⟩
  rw [← ehd, ← esz, ← ecap] at b1
  rcases hcase with ⟨hlt, hh0, hag⟩ | ⟨hfull, heq⟩
  · have hp : uadd a._head a._currentSize % a._capacity = a._currentSize := by
      rw [hh0, uadd_exact (by omega), Nat.zero_add, Nat.mod_eq_of_lt hlt]
    have hsz : a'._currentSize = a._currentSize + 1 := by
      rw [a3, if_pos hlt, uadd_exact (by omega)]
    have hhd : a'._head = 0 := by rw [a4, if_pos hlt, hh0]
    have hag' : ∀ j, j < a._currentSize + 1 →
        (la.set (uadd a._head a._currentSize % a._capacity) v)[j]? =
          (lb.set (uadd a._head a._currentSize % a._capacity) v)[j]? := by
      intro j hj
      rw [hp]
      by_cases hjs : a._currentSize = j
      · subst hjs
        rw [List.getElem?_set_self (by omega), List.getElem?_set_self (by omega)]
      · rw [List.getElem?_set_ne hjs, List.getElem?_set_ne hjs]
        exact hag j (by omega)
    by_cases hnext : a._currentSize + 1 < a._capacity
    · left
      refine ⟨by rw [hsz, a2]; exact hnext, hhd, ?_⟩
      intro j hj
      rw [hsz] at hj
      rw [← ehd, ← esz, ← ecap]
      exact hag' j hj
    · right
      refine ⟨by rw [hsz, a2]; omega, ?_⟩
      rw [← ehd, ← esz, ← ecap]
      apply List.ext_getElem?
      intro j
      by_cases hj : j < a._currentSize + 1
      · exact hag' j hj
      · rw [List.getElem?_eq_none (by rw [List.length_set]; omega),
          List.getElem?_eq_none (by rw [List.length_set]; omega)]
  · right
    refine ⟨by rw [a3, a2, if_neg (by omega)]; exact hfull, ?_⟩
    rw [← ehd, ← esz, ← ecap, heq]

theorem alike_add_all (vs : List α) : ∀ {a b : cbuffer α}, Alike a b →
    ∃ a' b', a.add_all vs = .ok a' ∧ b.add_all vs = .ok b' ∧ Alike a' b' := by
  induction vs with
  | nil => intro a b h; exact ⟨a, b, rfl, rfl, h⟩
  | cons v vs ih =>
    intro a b h
    obtain ⟨a1, b1, ha, hb, h1⟩ := alike_add_tail h v
    obtain ⟨a2, b2, ha2, hb2, h2⟩ := ih h1
    exact ⟨a2, b2, by rw [add_all_cons ha]; exact ha2, by rw [add_all_cons hb]; exact hb2, h2⟩

/-- Buffers that are alike have the same logical contents. -/
theorem alike_index {a b : cbuffer α} (h : Alike a b) (nd : Bool) (i : Nat)
    (hi : i < a._currentSize) :
    ∃ v, a.operator_index nd i = .ok v ∧ b.operator_index nd i = .ok v := by
  obtain ⟨wa, wb, hc0, ecap, esz, ehd, etl, la, lb, hla, hlb, hcase⟩ := h
  have hlen_a : la.length = a._capacity := wa.storage la hla
  have hlen_b : lb.length = a._capacity := by rw [ecap]; exact wb.storage lb hlb
  have hpos : 0 < a._capacity := Nat.pos_of_ne_zero hc0
  have hp : uadd a._head i % a._capacity < la.length := by
    rw [hlen_a]; exact Nat.mod_lt _ hpos
  have ha : ¬ (nd = false ∧ ¬ i < a._currentSize) := fun hh => hh.2 hi
  have hb : ¬ (nd = false ∧ ¬ i < b._currentSize) := fun hh => hh.2 (by rw [← esz]; exact hi)
  have hcb : ¬ b._capacity = 0 := by rw [← ecap]; exact hc0
  refine ⟨la.get ⟨_, hp⟩, ?_, ?_⟩
  · unfold cbuffer.operator_index
    rw [if_neg ha, if_neg hc0, hla]
    exact load_some la _ hp
  · unfold cbuffer.operator_index
    rw [if_neg hb, if_neg hcb, hlb, ← ehd, ← ecap]
    rcases hcase with ⟨hlt, hh0, hag⟩ | ⟨-, heq⟩
    · have hpi : uadd a._head i % a._capacity = i := by
        have := wa.capacity_lt
        rw [hh0, uadd_exact (by omega), Nat.zero_add, Nat.mod_eq_of_lt (by omega)]
      apply load_of_get
      rw [← hag _ (by rw [hpi]; exact hi)]
      exact List.getElem?_eq_getElem hp
    · subst heq
      exact load_some la _ hp

end Similar

/-! ## Steps at capacity `4294967295 = 2^32 - 1` -/

section Large

variable {α : Type}

theorem big_add_tail_full0 (l : List α) (hl : l.length = 4294967295) (t : Nat) (v : α) :
    cbuffer.add_tail ⟨some l, 4294967295, 4294967295, 0, t⟩ v =
      .ok ⟨some (l.set 0 v), 4294967295, 4294967295, 1, 0⟩ := by
  rw [add_tail_eq l _ _ _ _ v (by omega) hl]
  simp only [uadd, usub, UINT_RANGE]
  norm_num

theorem big_add_tail_full1 (l : List α) (hl : l.length = 4294967295) (t : Nat) (v : α) :
    cbuffer.add_tail ⟨some l, 4294967295, 4294967295, 1, t⟩ v =
      .ok ⟨some (l.set 0 v), 4294967295, 4294967295, 2, 0⟩ := by
  rw [add_tail_eq l _ _ _ _ v (by omega) hl]
  simp only [uadd, usub, UINT_RANGE]
  norm_num

theorem big_add_tail_last1 (l : List α) (hl : l.length = 4294967295) (t : Nat) (v : α) :
    cbuffer.add_tail ⟨some l, 4294967295, 1, 4294967294, t⟩ v =
      .ok ⟨some (l.set 0 v), 4294967295, 2, 4294967294, 0⟩ := by
  rw [add_tail_eq l _ _ _ _ v (by omega) hl]
  simp only [uadd, usub, UINT_RANGE]
  norm_num

theorem big_add_tail_last2 (l : List α) (hl : l.length = 4294967295) (t : Nat) (v : α) :
    cbuffer.add_tail ⟨some l, 4294967295, 2, 4294967294, t⟩ v =
      .ok ⟨some (l.set 0 v), 4294967295, 3, 4294967294, 0⟩ := by
  rw [add_tail_eq l _ _ _ _ v (by omega) hl]
  simp only [uadd, usub, UINT_RANGE]
  norm_num

theorem big_remove_tail3 (nd : Bool) (l : List α) :
    cbuffer.remove_tail nd ⟨some l, 4294967295, 3, 0, 2⟩ =
      .ok ⟨some l, 4294967295, 2, 0, 0⟩ := by
  rw [remove_tail_eq nd _ _ _ _ _ (by omega) (by omega)]
  simp only [uadd, usub, UINT_RANGE]
  norm_num

theorem big_remove_head_last (nd : Bool) (l : List α) :
    cbuffer.remove_head nd ⟨some l, 4294967295, 3, 4294967294, 0⟩ =
      .ok ⟨some l, 4294967295, 2, 0, 0⟩ := by
  rw [remove_head_eq nd _ _ _ _ _ (by omega) (by omega)]
  simp only [uadd, usub, UINT_RANGE]
  norm_num

/-- The run `cbuffer(2^32-1)`, three `add_tail`. -/
theorem big_three (ys : List Nat) (hl : ys.length = 4294967295) :
    run false [.add_tail 1, .add_tail 2, .add_tail 3]
        (⟨some ys, 4294967295, 0, 0, 0⟩ : cbuffer Nat) =
      .ok ⟨some (((ys.set 0 1).set 1 2).set 2 3), 4294967295, 3, 0, 2⟩ := by
  have h1 : (Op.add_tail 1).apply false (⟨some ys, 4294967295, 0, 0, 0⟩ : cbuffer Nat) = _ :=
    add_tail_grow ys 4294967295 0 0 0 1 hl (by omega) big_lt
  have h2 : (Op.add_tail 2).apply false
      (⟨some (ys.set 0 1), 4294967295, 1, 0, 0⟩ : cbuffer Nat) = _ :=
    add_tail_grow _ 4294967295 1 0 _ 2 (by simp [hl]) (by omega) big_lt
  have h3 : (Op.add_tail 3).apply false
      (⟨some ((ys.set 0 1).set 1 2), 4294967295, 2, 0, 1⟩ : cbuffer Nat) = _ :=
    add_tail_grow _ 4294967295 2 0 _ 3 (by simp [hl]) (by omega) big_lt
  rw [run_cons h1, run_cons h2, run_cons h3, run_nil]

/-- The run `cbuffer(2^32-1)`, three `add_tail`, one `remove_tail`. -/
theorem big_three_remove_tail (ys : List Nat) (hl : ys.length = 4294967295) :
    run false [.add_tail 1, .add_tail 2, .add_tail 3, .remove_tail]
        (⟨some ys, 4294967295, 0, 0, 0⟩ : cbuffer Nat) =
      .ok ⟨some (((ys.set 0 1).set 1 2).set 2 3), 4294967295, 2, 0, 0⟩ := by
  have h := @run_append _ false [.add_tail 1, .add_tail 2, .add_tail 3] [Op.remove_tail] _ _
    (big_three ys hl)
  have h4 : Op.remove_tail.apply false
      (⟨some (((ys.set 0 1).set 1 2).set 2 3), 4294967295, 3, 0, 2⟩ : cbuffer Nat) = _ :=
    big_remove_tail3 false _
  refine Eq.trans h ?_
  rw [run_cons h4, run_nil]

/-- The run `cbuffer(2^32-1)`, `add_tail` of `2^32-1` values, then of 1: the value 1 goes
to slot 0 and the head moves to 1. -/
theorem big_full_plus1 (ys : List Nat) (hl : ys.length = 4294967295) :
    cbuffer.add_all (cbuffer.ctor_capacity 4294967295) (ys ++ [1]) =
      .ok ⟨some (ys.set 0 1), 4294967295, 4294967295, 1, 0⟩ := by
  rw [add_all_append (add_all_ctor_full 4294967295 big_lt ys hl),
    add_all_cons (big_add_tail_full0 ys hl _ 1), add_all_nil]

/-- The run `cbuffer(2^32-1)`, `add_tail` of `2^32-1` values, then of 1 and 2: the value
2 goes to slot 0 again. -/
theorem big_full_plus2 (ys : List Nat) (hl : ys.length = 4294967295) :
    cbuffer.add_all (cbuffer.ctor_capacity 4294967295) (ys ++ [1, 2]) =
      .ok ⟨some ((ys.set 0 1).set 0 2), 4294967295, 4294967295, 2, 0⟩ := by
  rw [add_all_append (add_all_ctor_full 4294967295 big_lt ys hl),
    add_all_cons (big_add_tail_full0 ys hl _ 1),
    add_all_cons (big_add_tail_full1 (ys.set 0 1) (by rw [List.length_set]; exact hl) _ 2),
    add_all_nil]

/-- The run `cbuffer(2^32-1)`, `add_tail` of `2^32-1` values, `2^32-2` calls of
`remove_head`, then `add_tail` of 1 and of 2: head `2^32-2`, size 3, and both
values went to slot 0. -/
theorem big_star (ys : List Nat) (hl : ys.length = 4294967295) :
    run false (ys.map Op.add_tail ++ (List.replicate 4294967294 Op.remove_head ++
        [Op.add_tail 1, Op.add_tail 2])) (cbuffer.ctor_capacity 4294967295) =
      .ok ⟨some ((ys.set 0 1).set 0 2), 4294967295, 3, 4294967294, 0⟩ := by
  have h1 : run false (ys.map Op.add_tail) (cbuffer.ctor_capacity 4294967295 : cbuffer Nat) =
      .ok ⟨some ys, 4294967295, 4294967295, 0, 4294967295 - 1⟩ := by
    rw [run_map_add_tail]
    exact add_all_ctor_full 4294967295 big_lt ys hl
  have h2 := run_remove_heads (some ys) 4294967295 (4294967295 - 1) big_lt
    4294967294 4294967295 0 (by omega) (by omega) (by omega)
  rw [show 4294967295 - 4294967294 = 1 from by omega,
    show 0 + 4294967294 = 4294967294 from by omega] at h2
  have h3 : (Op.add_tail 1).apply false
      (⟨some ys, 4294967295, 1, 4294967294, 4294967295 - 1⟩ : cbuffer Nat) = _ :=
    big_add_tail_last1 ys hl _ 1
  have h4 : (Op.add_tail 2).apply false
      (⟨some (ys.set 0 1), 4294967295, 2, 4294967294, 0⟩ : cbuffer Nat) = _ :=
    big_add_tail_last2 (ys.set 0 1) (by rw [List.length_set]; exact hl) _ 2
  rw [run_append h1, run_append h2, run_cons h3, run_cons h4, run_nil]

/-- At capacity `2^32-1` and head 1 the index `2^32-2` is read from slot 0. -/
theorem big_index_head1 (nd : Bool) (l : List Nat) (t : Nat) :
    cbuffer.operator_index nd ⟨some l, 4294967295, 4294967295, 1, t⟩ 4294967294 =
      load (some l) 0 := by
  rw [operator_index_eq nd l _ _ _ _ _ (by omega) (by omega)]
  have e : uadd 1 4294967294 % 4294967295 = 0 := by
    simp only [uadd, UINT_RANGE]
  rw [e]

/-- At capacity `2^32-1` and head 2 the index `2^32-3` is read from slot 0. -/
theorem big_index_head2 (nd : Bool) (l : List Nat) (t : Nat) :
    cbuffer.operator_index nd ⟨some l, 4294967295, 4294967295, 2, t⟩ 4294967293 =
      load (some l) 0 := by
  rw [operator_index_eq nd l _ _ _ _ _ (by omega) (by omega)]
  have e : uadd 2 4294967293 % 4294967295 = 0 := by
    simp only [uadd, UINT_RANGE]
  rw [e]

/-- At capacity `2^32-1` and head `2^32-2` the index 2 is read from slot 0. -/
theorem big_index_last2 (nd : Bool) (l : List Nat) (t : Nat) :
    cbuffer.operator_index nd ⟨some l, 4294967295, 3, 4294967294, t⟩ 2 = load (some l) 0 := by
  rw [operator_index_eq nd l _ _ _ _ _ (by omega) (by omega)]
  have e : uadd 4294967294 2 % 4294967295 = 0 := by
    simp only [uadd, UINT_RANGE]
  rw [e]

/-- At head 0 the index 1 is read from slot 1. -/
theorem big_index_first1 (nd : Bool) (l : List Nat) (t : Nat) :
    cbuffer.operator_index nd ⟨some l, 4294967295, 2, 0, t⟩ 1 = load (some l) 1 := by
  rw [operator_index_eq nd l _ _ _ _ _ (by omega) (by omega)]
  have e : uadd 0 1 % 4294967295 = 1 := by
    simp only [uadd, UINT_RANGE]
  rw [e]

end Large

/-! ## Totality under the preconditions -/

section Total

variable {α : Type}

/-- On a well-formed buffer `operator[](i)` with `i < size` returns, and the slot
it computes is below the capacity. -/
theorem operator_index_total {b : cbuffer α} (w : WF b) (nd : Bool) (i : Nat)
    (hi : i < b._currentSize) :
    uadd b._head i % b._capacity < b._capacity ∧
      ∃ v, b.operator_index nd i = .ok v ∧ load b._buffer (uadd b._head i % b._capacity) = .ok v := by
  have hc0 : b._capacity ≠ 0 := by have := w.size_le; omega
  obtain ⟨l, hl, hlen⟩ := w.storage_ex hc0
  have hp : uadd b._head i % b._capacity < b._capacity := Nat.mod_lt _ (Nat.pos_of_ne_zero hc0)
  have ha : ¬ (nd = false ∧ ¬ i < b._currentSize) := fun hh => hh.2 hi
  refine ⟨hp, l.get ⟨_, by rw [hlen]; exact hp⟩, ?_, ?_⟩
  · unfold cbuffer.operator_index
    rw [if_neg ha, if_neg hc0, hl]
    exact load_some l _ _
  · rw [hl]
    exact load_some l _ _

/-- On a well-formed buffer the loop from `begin()` to `end()` ends without a
fault after `size` dereferences, given more fuel than elements. -/
theorem traverse_total {b : cbuffer α} (w : WF b) (fuel : Nat) (hf : b._currentSize < fuel) :
    ∃ vs, b.traverse fuel = some (.ok vs) ∧ vs.length = b._currentSize := by
  by_cases hc0 : b._capacity = 0
  · have hs : b._currentSize = 0 := by have := w.size_le; omega
    obtain ⟨f, rfl⟩ : ∃ f, fuel = f + 1 := ⟨fuel - 1, by omega⟩
    refine ⟨[], ?_, by rw [hs]; rfl⟩
    unfold cbuffer.traverse
    exact traverse_loop_done _ _ _ (by simp [cbuffer.begin, cbuffer.end_, hs])
  · obtain ⟨l, hb, hl, hn, hh, -⟩ := w.cases hc0
    have hcap := w.capacity_lt
    generalize b._capacity = c at *
    generalize b._currentSize = n at *
    generalize b._head = h at *
    generalize b._tail = t at *
    subst hb
    obtain ⟨vs, hvs, hlen, -⟩ := traverse_loop_exact l c hc0 hcap hl
      (cbuffer.end_ ⟨some l, c, n, h, t⟩) rfl n h fuel (by omega) hh hf
    exact ⟨vs, hvs, hlen⟩

/-- Calls other than `clear()` keep the capacity. -/
theorem run_capacity {nd : Bool} {ops : List (Op α)} (hops : ∀ o ∈ ops, o.is_clear = false) :
    ∀ {b0 b : cbuffer α}, run nd ops b0 = .ok b → b._capacity = b0._capacity := by
  induction ops with
  | nil =>
    intro b0 b h
    rw [run_nil] at h
    cases h
    rfl
  | cons o os ih =>
    intro b0 b h
    have hos : ∀ o' ∈ os, o'.is_clear = false := fun o' ho' =>
      hops o' (List.mem_cons_of_mem _ ho')
    cases ho : o.apply nd b0 with
    | error err => rw [run, ho] at h; cases h
    | ok b1 =>
      rw [run_cons ho] at h
      rw [ih hos h]
      cases o with
      | add_tail v => exact (add_tail_ok_inv ho).2.choose_spec.2.2.2.1
      | remove_head => exact (remove_head_ok_inv ho).2.2.2.1
      | remove_tail => exact (remove_tail_ok_inv ho).2.2.2.1
      | clear =>
        have := hops Op.clear (List.mem_cons_self _ _)
        simp [Op.is_clear] at this

/-- With capacity at most `2^31` the slot `operator[]` computes is the exact
`(head + index) mod capacity`. -/
theorem slot_exact_small_capacity (c head size index : Nat) (hc : c ≤ 2147483648)
    (hh : head < c) (hs : size ≤ c) (hi : index < size) :
    uadd head index % c = (head + index) % c := by
  rw [uadd_exact (by unfold UINT_RANGE; omega)]

end Total

/-! ## The range constructor -/

section Range

variable {α : Type}

/-- After `add_tail` of the elements of `xs` the size is the old size plus
`|xs|`, capped by the capacity (at every capacity). -/
theorem add_all_size {xs : List α} : ∀ {b b' : cbuffer α}, WF b →
    b.add_all xs = .ok b' → b'._currentSize = min b._capacity (b._currentSize + xs.length) := by
  induction xs with
  | nil =>
    intro b b' w h
    rw [add_all_nil] at h
    cases h
    have := w.size_le
    simp only [List.length_nil, Nat.add_zero]
    omega
  | cons x xs ih =>
    intro b b' w h
    cases hx : b.add_tail x with
    | error e => rw [cbuffer.add_all, hx] at h; cases h
    | ok b1 =>
      rw [add_all_cons hx] at h
      have h1 := ih (wf_add_tail w hx) h
      obtain ⟨-, l, -, -, -, e2, e3, -, -⟩ := add_tail_ok_inv hx
      have hs := w.size_le
      have hc := w.capacity_lt
      rw [h1, e2, e3, List.length_cons]
      by_cases hlt : b._currentSize < b._capacity
      · rw [if_pos hlt, uadd_exact (by omega)]
        omega
      · rw [if_neg hlt]
        omega

/-- The range constructor for capacities from 1 to `2^31`: it returns the state
of `cbuffer(c)` followed by `add_tail` of each element, of size `min c |xs|`,
whose logical contents are the last `min c |xs|` elements of `xs` in order. -/
theorem ctor_range_small_capacity [Inhabited α] (c : Nat) (hc1 : 1 ≤ c)
    (hc : c ≤ 2147483648) (xs : List α) :
    ∃ b, cbuffer.ctor_range c xs = .ok b ∧
      cbuffer.add_all (cbuffer.ctor_capacity c) xs = .ok b ∧
      b.get_currentSize = min c xs.length ∧
      ∀ i, i < min c xs.length → ∀ nd, ∃ v,
        xs[xs.length - min c xs.length + i]? = some v ∧ b.operator_index nd i = .ok v := by
  obtain ⟨b, hb, -, -, hsz, hget⟩ := add_all_fifo c hc1 hc xs
  refine ⟨b, hb, hb, hsz, ?_⟩
  intro i hi nd
  obtain ⟨v, hv, hv'⟩ := hget i (by rw [hsz]; exact hi) nd
  rw [hsz] at hv
  exact ⟨v, hv, hv'⟩

/-- The range constructor with capacity 2 over 10, 20, 30 gives the logical
contents 20, 30. -/
theorem ctor_range_scenario :
    cbuffer.ctor_range 2 [10, 20, 30] = .ok (⟨some [30, 20], 2, 2, 1, 0⟩ : cbuffer Nat) ∧
      (⟨some [30, 20], 2, 2, 1, 0⟩ : cbuffer Nat).operator_index false 0 = .ok 20 ∧
      (⟨some [30, 20], 2, 2, 1, 0⟩ : cbuffer Nat).operator_index false 1 = .ok 30 ∧
      (⟨some [30, 20], 2, 2, 1, 0⟩ : cbuffer Nat).traverse 3 = some (.ok [20, 30]) :=
  ⟨rfl, rfl, rfl, rfl⟩

end Range

/-! ## More steps at capacity `4294967295 = 2^32 - 1` -/

section Large2

variable {α : Type}

/-- The run `cbuffer(2^32-1)`, `add_tail` of `2^32-1` values, `2^32-2` calls of
`remove_head`, then `add_tail(a)`: head `2^32-2`, size 2, and `a` is in slot 0. -/
theorem big_prestar_gen [Inhabited α] (ys : List α) (hl : ys.length = 4294967295) (a : α) :
    run false (ys.map Op.add_tail ++ (List.replicate 4294967294 Op.remove_head ++
        [Op.add_tail a])) (cbuffer.ctor_capacity 4294967295) =
      .ok ⟨some (ys.set 0 a), 4294967295, 2, 4294967294, 0⟩ := by
  have h1 : run false (ys.map Op.add_tail) (cbuffer.ctor_capacity 4294967295 : cbuffer α) =
      .ok ⟨some ys, 4294967295, 4294967295, 0, 4294967295 - 1⟩ := by
    rw [run_map_add_tail]
    exact add_all_ctor_full 4294967295 big_lt ys hl
  have h2 := run_remove_heads (some ys) 4294967295 (4294967295 - 1) big_lt
    4294967294 4294967295 0 (by omega) (by omega) (by omega)
  rw [show 4294967295 - 4294967294 = 1 from by omega,
    show 0 + 4294967294 = 4294967294 from by omega] at h2
  have h3 : (Op.add_tail a).apply false
      (⟨some ys, 4294967295, 1, 4294967294, 4294967295 - 1⟩ : cbuffer α) = _ :=
    big_add_tail_last1 ys hl _ a
  rw [run_append h1, run_append h2, run_cons h3, run_nil]

/-- The run of `big_prestar_gen` followed by `add_tail(b)`: size 3, and `b` went
to slot 0 too. -/
theorem big_star_gen [Inhabited α] (ys : List α) (hl : ys.length = 4294967295) (a b : α) :
    run false (ys.map Op.add_tail ++ (List.replicate 4294967294 Op.remove_head ++
        [Op.add_tail a, Op.add_tail b])) (cbuffer.ctor_capacity 4294967295) =
      .ok ⟨some ((ys.set 0 a).set 0 b), 4294967295, 3, 4294967294, 0⟩ := by
  have h1 : run false (ys.map Op.add_tail) (cbuffer.ctor_capacity 4294967295 : cbuffer α) =
      .ok ⟨some ys, 4294967295, 4294967295, 0, 4294967295 - 1⟩ := by
    rw [run_map_add_tail]
    exact add_all_ctor_full 4294967295 big_lt ys hl
  have h2 := run_remove_heads (some ys) 4294967295 (4294967295 - 1) big_lt
    4294967294 4294967295 0 (by omega) (by omega) (by omega)
  rw [show 4294967295 - 4294967294 = 1 from by omega,
    show 0 + 4294967294 = 4294967294 from by omega] at h2
  have h3 : (Op.add_tail a).apply false
      (⟨some ys, 4294967295, 1, 4294967294, 4294967295 - 1⟩ : cbuffer α) = _ :=
    big_add_tail_last1 ys hl _ a
  have h4 : (Op.add_tail b).apply false
      (⟨some (ys.set 0 a), 4294967295, 2, 4294967294, 0⟩ : cbuffer α) = _ :=
    big_add_tail_last2 (ys.set 0 a) (by rw [List.length_set]; exact hl) _ b
  rw [run_append h1, run_append h2, run_cons h3, run_cons h4, run_nil]

/-- At capacity `2^32-1`, head `2^32-2`, size 3, tail 0, `remove_tail` leaves
tail `2^32-2`. -/
theorem big_remove_tail_last (nd : Bool) (l : List α) :
    cbuffer.remove_tail nd ⟨some l, 4294967295, 3, 4294967294, 0⟩ =
      .ok ⟨some l, 4294967295, 2, 4294967294, 4294967294⟩ := by
  rw [remove_tail_eq nd _ _ _ _ _ (by omega) (by omega)]
  simp only [uadd, usub, UINT_RANGE]
  norm_num

/-- At capacity `2^32-1` and head `2^32-2` the index 1 is read from slot 0. -/
theorem big_index_last1 (nd : Bool) (l : List α) (n t : Nat) (hn : 1 < n) :
    cbuffer.operator_index nd ⟨some l, 4294967295, n, 4294967294, t⟩ 1 = load (some l) 0 := by
  rw [operator_index_eq nd l _ _ _ _ _ (by omega) hn]
  have e : uadd 4294967294 1 % 4294967295 = 0 := by
    simp only [uadd, UINT_RANGE]
  rw [e]

end Large2

/-! ## Eviction and the insert/remove round trip -/

section Evict

variable {α : Type}

theorem set_same_of_get (l : List α) (p : Nat) (a : α) (h : l[p]? = some a) :
    l.set p a = l := by
  apply List.ext_getElem?
  intro j
  by_cases hj : p = j
  · subst hj
    have hp : p < l.length := by
      by_contra hn
      rw [List.getElem?_eq_none (by omega)] at h
      cases h
    rw [List.getElem?_set_self hp, h]
  · rw [List.getElem?_set_ne hj]

/-- On a full buffer whose slots all hold `a`, `add_tail(a)` repeated `j` times
moves the head by `j` and leaves the array as it is. -/
theorem add_all_evict (ys : List α) (a : α) (c : Nat) (hc0 : c ≠ 0) (hc : c < UINT_RANGE)
    (hl : ys.length = c) (hall : ∀ p, p < c → ys[p]? = some a) :
    ∀ (j h t : Nat), h + j < c →
      ∃ t', cbuffer.add_all ⟨some ys, c, c, h, t⟩ (List.replicate j a) =
        .ok ⟨some ys, c, c, h + j, t'⟩ := by
  intro j
  induction j with
  | zero => intro h t _; exact ⟨t, rfl⟩
  | succ j ih =>
    intro h t hh
    have hstep : cbuffer.add_tail ⟨some ys, c, c, h, t⟩ a =
        .ok ⟨some ys, c, c, h + 1, usub (uadd (uadd h 1 % c) c) 1 % c⟩ := by
      rw [add_tail_eq ys c c h t a hc0 hl]
      have hp : uadd h c % c < c := Nat.mod_lt _ (Nat.pos_of_ne_zero hc0)
      rw [set_same_of_get ys _ a (hall _ hp), if_neg (Nat.lt_irrefl c),
        if_neg (Nat.lt_irrefl c)]
      have e : uadd h 1 % c = h + 1 := by
        rw [uadd_exact (by omega), Nat.mod_eq_of_lt (by omega)]
      rw [e]
    obtain ⟨t', ht'⟩ := ih (h + 1) _ (by omega)
    refine ⟨t', ?_⟩
    rw [List.replicate_succ, add_all_cons hstep, ht']
    have e : h + 1 + j = h + (j + 1) := by omega
    rw [e]

/-- Eviction equals explicit removal for capacities from 1 to `2^31`: on a full
buffer `add_tail(v)` returns the state that `remove_head()` followed by
`add_tail(v)` returns. -/
theorem evict_eq_remove_small_capacity (b : cbuffer α) (w : WF b) (hc1 : 1 ≤ b._capacity)
    (hc : b._capacity ≤ 2147483648) (hfull : b._currentSize = b._capacity) (v : α)
    (nd : Bool) :
    ∃ b1 b', b.remove_head nd = .ok b1 ∧ b1.add_tail v = .ok b' ∧ b.add_tail v = .ok b' := by
  obtain ⟨l, hb, hl, hn, hh, -⟩ := w.cases (by omega)
  generalize b._capacity = c at *
  generalize b._currentSize = n at *
  generalize b._head = h at *
  generalize b._tail = t at *
  subst hb
  subst hfull
  have hc0 : n ≠ 0 := by omega
  have hpos : 0 < n := by omega
  have hm : (h + 1) % n < n := Nat.mod_lt _ hpos
  rw [remove_head_eq nd _ n n h t hc0 hpos, usub_exact hpos (by unfold UINT_RANGE; omega),
    uadd_exact (by unfold UINT_RANGE; omega), add_tail_exact l n n h t v hc0 hc hl hn hh]
  simp only [Nat.lt_irrefl, if_false]
  by_cases h1 : n - 1 = 0
  · have hn1 : n = 1 := by omega
    subst hn1
    have hh0 : h = 0 := by omega
    subst hh0
    rw [if_pos h1, if_pos h1]
    refine ⟨_, _, rfl, ?_, rfl⟩
    rw [add_tail_exact l 1 (1 - 1) 0 0 v hc0 hc hl (by omega) (by omega)]
    simp
  · rw [if_neg h1, if_neg h1]
    refine ⟨_, _, rfl, ?_, rfl⟩
    rw [add_tail_exact l n (n - 1) _ t v hc0 hc hl (by omega) hm]
    have hlt : n - 1 < n := by omega
    simp only [hlt, if_true]
    have e1 : n - 1 + 1 = n := by omega
    have e2 : ((h + 1) % n + (n - 1)) % n = (h + n) % n := by
      rw [Nat.mod_add_mod]
      congr 1
      omega
    rw [e1, e2]

/-- An empty buffer has head and tail 0, in every state an object can be in. -/
theorem Reach.empty_canonical [Inhabited α] {b : cbuffer α} (h : Reach b) :
    b._currentSize = 0 → b._head = 0 ∧ b._tail = 0 := by
  induction h with
  | ctor_default => intro _; exact ⟨rfl, rfl⟩
  | ctor_capacity c hc => intro _; exact ⟨rfl, rfl⟩
  | ctor_range c xs b hc hr =>
    intro hz
    unfold cbuffer.ctor_range at hr
    cases xs with
    | nil =>
      rw [add_all_nil] at hr
      cases hr
      exact ⟨rfl, rfl⟩
    | cons x xs =>
      exfalso
      have hs := add_all_size (wf_ctor_capacity c hc) hr
      cases hx : (cbuffer.ctor_capacity c : cbuffer α).add_tail x with
      | error e => rw [cbuffer.add_all, hx] at hr; cases hr
      | ok b1 =>
        have hc0 := (add_tail_ok_inv hx).1
        rw [hz] at hs
        simp only [cbuffer.ctor_capacity, List.length_cons] at hs hc0
        omega
  | ctor_copy other b ho hc ih =>
    obtain ⟨-, -, e2, e3, e4⟩ := ctor_copy_ok_inv ho.wf hc
    intro hz
    rw [e3, e4]
    exact ih (by rw [← e2]; exact hz)
  | operator_assign same b other b' hb ho ha ih1 ih2 =>
    unfold cbuffer.operator_assign at ha
    cases same with
    | true =>
      simp only [if_true] at ha
      cases ha
      exact ih1
    | false =>
      simp only [Bool.false_eq_true, if_false] at ha
      cases hc : cbuffer.ctor_copy false other with
      | error e => rw [hc] at ha; cases ha
      | ok tmp =>
        rw [hc] at ha
        cases ha
        obtain ⟨-, -, e2, e3, e4⟩ := ctor_copy_ok_inv ho.wf hc
        intro hz
        simp only [cbuffer.swap] at hz ⊢
        rw [e3, e4]
        exact ih2 (by rw [← e2]; exact hz)
  | swap_this b other _ _ _ ih2 => exact ih2
  | swap_other b other _ _ ih1 _ => exact ih1
  | clear b _ _ => intro _; exact ⟨rfl, rfl⟩
  | add_tail b v b' hb ha _ =>
    intro hz
    exfalso
    obtain ⟨hc0, l, -, -, -, -, e3, -, -⟩ := add_tail_ok_inv ha
    have := hb.wf.size_le
    have := hb.wf.capacity_lt
    rw [e3] at hz
    by_cases hlt : b._currentSize < b._capacity
    · rw [if_pos hlt, uadd_exact (by omega)] at hz
      omega
    · rw [if_neg hlt] at hz
      omega
  | remove_head b b' hb hr _ =>
    obtain ⟨-, -, -, -, e3, e4, e5⟩ := remove_head_ok_inv hr
    intro hz
    rw [e3] at hz
    rw [e4, e5, if_pos hz, if_pos hz]
    exact ⟨rfl, rfl⟩
  | remove_tail b b' hb hr _ =>
    obtain ⟨-, -, -, -, e3, e4, e5⟩ := remove_tail_ok_inv hr
    intro hz
    rw [e3] at hz
    rw [e4, e5, if_pos hz, if_pos hz]
    exact ⟨rfl, rfl⟩

/-- Insert/remove-tail round trip for capacities up to `2^31`: on a buffer that
is not full, `add_tail(v)` followed by `remove_tail()` restores the capacity,
size, head index, tail index and every `operator[](i)`, `i < size`. -/
theorem round_trip_small_capacity [Inhabited α] (b : cbuffer α) (h : Reach b)
    (hc : b._capacity ≤ 2147483648) (hlt : b._currentSize < b._capacity) (v : α)
    (nd nd' : Bool) :
    ∃ b1 b2, b.add_tail v = .ok b1 ∧ b1.remove_tail nd = .ok b2 ∧
      b2._capacity = b._capacity ∧ b2._currentSize = b._currentSize ∧
      b2._head = b._head ∧ b2._tail = b._tail ∧
      ∀ i, i < b._currentSize → b2.operator_index nd' i = b.operator_index nd' i := by
  have w := h.wf
  obtain ⟨b1, hb1, c1, hgrow, -, t1, -⟩ := add_tail_post b v w (by omega) hc nd'
  obtain ⟨s1, hd1, hold, -⟩ := hgrow hlt
  have w1 := wf_add_tail w hb1
  obtain ⟨b2, hb2, s2, c2, hkeep, hzero, hpos⟩ :=
    remove_tail_post b1 w1 (by rw [c1]; exact hc) (by omega) nd nd'
  refine ⟨b1, b2, hb1, hb2, by rw [c2, c1], by rw [s2, s1]; omega, ?_, ?_, ?_⟩
  · by_cases hz : b1._currentSize - 1 = 0
    · rw [(hzero hz).1, (h.empty_canonical (by omega)).1]
    · rw [(hpos hz).1, hd1]
  · by_cases hz : b1._currentSize - 1 = 0
    · rw [(hzero hz).2, (h.empty_canonical (by omega)).2]
    · rw [(hpos hz).2.1, t1, c1, hd1, s1, h.tailrel hc (by omega)]
      have hh := w.head_le
      have k : (b._head + (b._currentSize + 1) - 1) % b._capacity + b._capacity - 1 =
          (b._head + b._currentSize) % b._capacity + (b._capacity - 1) := by
        have : b._head + (b._currentSize + 1) - 1 = b._head + b._currentSize := by omega
        rw [this]
        omega
      rw [k, Nat.mod_add_mod]
      have k2 : b._head + b._currentSize + (b._capacity - 1) =
          b._head + b._currentSize - 1 + b._capacity := by omega
      rw [k2, Nat.add_mod_right]
  · intro i hi
    rw [hkeep i (by omega), hold i hi]

end Evict

/-! ## Steps at capacity `2^32 - 1` with the head in the last slot -/

section Large3

variable {α : Type}

/-- On a full buffer of capacity `2^32-1` with head `2^32-2`, `add_tail` stores
into slot `2^32-3`. -/
theorem big_add_tail_wrap (l : List α) (hl : l.length = 4294967295) (t : Nat) (v : α) :
    cbuffer.add_tail ⟨some l, 4294967295, 4294967295, 4294967294, t⟩ v =
      .ok ⟨some (l.set 4294967293 v), 4294967295, 4294967295, 0, 4294967294⟩ := by
  rw [add_tail_eq l _ _ _ _ v (by omega) hl]
  simp only [uadd, usub, UINT_RANGE]
  norm_num

/-- On a full buffer of capacity `2^32-1` with head `2^32-2`, `remove_head`
moves the head to 0. -/
theorem big_remove_head_wrap (nd : Bool) (l : List α) (t : Nat) :
    cbuffer.remove_head nd ⟨some l, 4294967295, 4294967295, 4294967294, t⟩ =
      .ok ⟨some l, 4294967295, 4294967294, 0, t⟩ := by
  rw [remove_head_eq nd _ _ _ _ _ (by omega) (by omega)]
  simp only [uadd, usub, UINT_RANGE]
  norm_num

/-- With head 0 and `2^32-2` elements `add_tail` stores into slot `2^32-2`. -/
theorem big_add_tail_refill (l : List α) (hl : l.length = 4294967295) (t : Nat) (v : α) :
    cbuffer.add_tail ⟨some l, 4294967295, 4294967294, 0, t⟩ v =
      .ok ⟨some (l.set 4294967294 v), 4294967295, 4294967295, 0, 4294967294⟩ := by
  rw [add_tail_eq l _ _ _ _ v (by omega) hl]
  simp only [uadd, usub, UINT_RANGE]
  norm_num

/-- With head 0 on a full buffer of capacity `2^32-1`, `get_tail()` reads slot
`2^32-2`. -/
theorem big_get_tail_head0 (nd : Bool) (l : List α) (t : Nat) :
    cbuffer.get_tail nd ⟨some l, 4294967295, 4294967295, 0, t⟩ =
      load (some l) 4294967294 := by
  unfold cbuffer.get_tail
  have e1 : usub 4294967295 1 = 4294967294 := by
    simp only [usub, UINT_RANGE]
  simp only [e1]
  rw [operator_index_eq nd l _ _ _ _ _ (by omega) (by omega)]
  have e : uadd 0 4294967294 % 4294967295 = 4294967294 := by
    simp only [uadd, UINT_RANGE]
  rw [e]

/-- The run `cbuffer(2^32-1)`, `add_tail(a)` `2^32-1` times and then `2^32-2`
times more: the buffer is full with head `2^32-2` and every slot holds `a`. -/
theorem big_full_last [Inhabited α] (ys : List α) (a : α) (hl : ys.length = 4294967295)
    (hall : ∀ p, p < 4294967295 → ys[p]? = some a) :
    ∃ t, cbuffer.add_all (cbuffer.ctor_capacity 4294967295)
        (ys ++ List.replicate 4294967294 a) =
      .ok ⟨some ys, 4294967295, 4294967295, 4294967294, t⟩ := by
  obtain ⟨t, ht⟩ := add_all_evict ys a 4294967295 (by omega) big_lt hl hall
    4294967294 0 (4294967295 - 1) (by omega)
  rw [show 0 + 4294967294 = 4294967294 from by omega] at ht
  exact ⟨t, by rw [add_all_append (add_all_ctor_full 4294967295 big_lt ys hl), ht]⟩

end Large3

/-! ## The copy constructor -/

section Copy

variable {α : Type}

/-- The result of `(*this)[i] = v` under its precondition. -/
theorem assign_index_eq (nd : Bool) (l : List α) (c n h t i : Nat) (v : α) (hc0 : c ≠ 0)
    (hl : l.length = c) (hi : i < n) :
    cbuffer.assign_index nd ⟨some l, c, n, h, t⟩ i v =
      .ok ⟨some (l.set (uadd h i % c) v), c, n, h, t⟩ := by
  have hp : uadd h i % c < l.length := by
    rw [hl]; exact Nat.mod_lt _ (Nat.pos_of_ne_zero hc0)
  have ha : ¬ (nd = false ∧ ¬ i < n) := fun hh => hh.2 hi
  unfold cbuffer.assign_index
  simp only [ha, hc0, store, hp, if_true, if_false]

theorem copy_loop_zero (nd : Bool) (other b : cbuffer α) (i : Nat) :
    cbuffer.copy_loop nd other 0 i b = .ok b := rfl

theorem copy_loop_succ {nd : Bool} {other b b' : cbuffer α} {i : Nat} {v : α} (n : Nat)
    (hv : other.operator_index nd i = .ok v) (hw : b.assign_index nd i v = .ok b') :
    cbuffer.copy_loop nd other (n + 1) i b = cbuffer.copy_loop nd other n (uadd i 1) b' := by
  rw [cbuffer.copy_loop, hv]
  simp only [hw]

/-- The copy loop from index `i` with `k` iterations left: it returns, and the
slot of every index below `i + k` holds what the source holds there. -/
theorem copy_loop_spec (nd : Bool) (la : List α) (c n h t : Nat) (hc0 : c ≠ 0)
    (hcap : c < UINT_RANGE) (hla : la.length = c) (hn : n ≤ c) :
    ∀ (k i : Nat) (lb : List α), lb.length = c → i + k ≤ n →
      (∀ j, j < i → lb[uadd h j % c]? = la[uadd h j % c]?) →
      ∃ lb', cbuffer.copy_loop nd ⟨some la, c, n, h, t⟩ k i ⟨some lb, c, n, h, t⟩ =
          .ok ⟨some lb', c, n, h, t⟩ ∧ lb'.length = c ∧
        ∀ j, j < i + k → lb'[uadd h j % c]? = la[uadd h j % c]? := by
  intro k
  induction k with
  | zero =>
    intro i lb hlb _ hinv
    exact ⟨lb, rfl, hlb, hinv⟩
  | succ k ih =>
    intro i lb hlb hik hinv
    have hpos : 0 < c := Nat.pos_of_ne_zero hc0
    have hp : uadd h i % c < la.length := by rw [hla]; exact Nat.mod_lt _ hpos
    have hv : cbuffer.operator_index nd ⟨some la, c, n, h, t⟩ i = .ok (la.get ⟨_, hp⟩) := by
      rw [operator_index_eq nd la c n h t i hc0 (by omega)]
      exact load_some la _ hp
    have hw := assign_index_eq nd lb c n h t i (la.get ⟨_, hp⟩) hc0 hlb (by omega)
    have hget : la[uadd h i % c]? = some (la.get ⟨_, hp⟩) := List.getElem?_eq_getElem hp
    obtain ⟨lb', h1, h2, h3⟩ := ih (i + 1) (lb.set (uadd h i % c) (la.get ⟨_, hp⟩))
      (by rw [List.length_set]; exact hlb) (by omega) (by
        intro j hj
        by_cases hs : uadd h i % c = uadd h j % c
        · rw [← hs, List.getElem?_set_self (by rw [hlb]; exact Nat.mod_lt _ hpos), hget]
        · rw [List.getElem?_set_ne hs]
          by_cases hji : j = i
          · subst hji; exact absurd rfl hs
          · exact hinv j (by omega))
    refine ⟨lb', ?_, h2, ?_⟩
    · rw [copy_loop_succ k hv hw, uadd_exact (by omega)]
      exact h1
    · intro j hj
      exact h3 j (by omega)

/-- The copy constructor on a well-formed buffer returns a buffer with the same
capacity, size, head index and tail index, and with the same `operator[](i)`
for every `i < size` (at every capacity). -/
theorem ctor_copy_spec [Inhabited α] (nd : Bool) (other : cbuffer α) (w : WF other) :
    ∃ b, cbuffer.ctor_copy nd other = .ok b ∧ WF b ∧
      (∃ l, b._buffer = some l) ∧
      b._capacity = other._capacity ∧ b._currentSize = other._currentSize ∧
      b._head = other._head ∧ b._tail = other._tail ∧
      ∀ i, i < other._currentSize → ∀ nd', ∃ v,
        b.operator_index nd' i = .ok v ∧ other.operator_index nd' i = .ok v := by
  by_cases hc0 : other._capacity = 0
  · have hs : other._currentSize = 0 := by have := w.size_le; omega
    have hb : cbuffer.ctor_copy nd other =
        .ok ⟨some (List.replicate other._capacity default), other._capacity,
          other._currentSize, other._head, other._tail⟩ := by
      unfold cbuffer.ctor_copy
      rw [hs]
      rfl
    refine ⟨_, hb, (ctor_copy_ok_inv w hb).1, ⟨_, rfl⟩, rfl, rfl, rfl, rfl, ?_⟩
    intro i hi
    omega
  · obtain ⟨la, hb, hl, hn, hh, -⟩ := w.cases hc0
    have hcap := w.capacity_lt
    generalize other._capacity = c at *
    generalize other._currentSize = n at *
    generalize other._head = h at *
    generalize other._tail = t at *
    subst hb
    obtain ⟨lb', h1, h2, h3⟩ := copy_loop_spec nd la c n h t hc0 hcap hl hn n 0
      (List.replicate c default) (List.length_replicate _ _) (by omega)
      (fun j hj => by omega)
    have hb : cbuffer.ctor_copy nd ⟨some la, c, n, h, t⟩ = .ok ⟨some lb', c, n, h, t⟩ := h1
    have hwf : WF (⟨some la, c, n, h, t⟩ : cbuffer α) := w
    refine ⟨_, hb, (ctor_copy_ok_inv hwf hb).1, ⟨_, rfl⟩, rfl, rfl, rfl, rfl, ?_⟩
    intro i hi nd'
    have hpos : 0 < c := Nat.pos_of_ne_zero hc0
    have hp : uadd h i % c < la.length := by rw [hl]; exact Nat.mod_lt _ hpos
    refine ⟨la.get ⟨_, hp⟩, ?_, ?_⟩
    · rw [operator_index_eq nd' lb' c n h t i hc0 hi]
      apply load_of_get
      rw [h3 i (by omega)]
      exact List.getElem?_eq_getElem hp
    · rw [operator_index_eq nd' la c n h t i hc0 hi]
      exact load_some la _ hp

end Copy

/-! ## Calls on objects in one memory -/

section Memory

variable {α : Type}

/-- The state of an object depends on the memory only through the array its
pointer names. -/
theorem state_congr {m m' : List (List α)} {o : cbuffer_obj}
    (h : ∀ q, o._buffer = some q → m'[q]? = m[q]?) : o.state m' = o.state m := by
  unfold cbuffer_obj.state
  cases hb : o._buffer with
  | none => rfl
  | some p => simp only [h p hb]

/-- A call on an object keeps the size of the memory and every array that the
object does not point to. -/
theorem call_frame {f : cbuffer α → Except Fault (cbuffer α)} {m m' : List (List α)}
    {o o' : cbuffer_obj} (h : cbuffer_obj.call f m o = .ok (m', o')) :
    m'.length = m.length ∧ (o'._buffer = o._buffer ∨ o'._buffer = none) ∧
      ∀ q, o._buffer ≠ some q → m'[q]? = m[q]? := by
  unfold cbuffer_obj.call at h
  cases hf : f (o.state m) with
  | error e => rw [hf] at h; cases h
  | ok b =>
    rw [hf] at h
    cases hp : o._buffer with
    | none =>
      simp only [hp] at h
      cases h
      exact ⟨rfl, Or.inl rfl, fun _ _ => rfl⟩
    | some p =>
      cases hl : b._buffer with
      | none =>
        simp only [hp, hl] at h
        cases h
        exact ⟨rfl, Or.inr rfl, fun _ _ => rfl⟩
      | some l =>
        simp only [hp, hl] at h
        cases h
        refine ⟨List.length_set _ _ _, Or.inl rfl, ?_⟩
        intro q hq
        have hne : p ≠ q := fun e => hq (by rw [e])
        exact List.getElem?_set_ne hne

/-- A sequence of calls on an object keeps the size of the memory and every
array that the object does not point to. -/
theorem obj_run_frame {nd : Bool} {ops : List (Op α)} :
    ∀ {m m' : List (List α)} {o o' : cbuffer_obj}, cbuffer_obj.run nd ops m o = .ok (m', o') →
      m'.length = m.length ∧ ∀ q, o._buffer ≠ some q → m'[q]? = m[q]? := by
  induction ops with
  | nil =>
    intro m m' o o' h
    simp only [cbuffer_obj.run] at h
    cases h
    exact ⟨rfl, fun _ _ => rfl⟩
  | cons op ops ih =>
    intro m m' o o' h
    rw [cbuffer_obj.run] at h
    cases hc : cbuffer_obj.call (op.apply nd) m o with
    | error e => rw [hc] at h; cases h
    | ok r =>
      obtain ⟨m1, o1⟩ := r
      rw [hc] at h
      obtain ⟨l1, hptr, f1⟩ := call_frame hc
      obtain ⟨l2, f2⟩ := ih h
      refine ⟨by rw [l2, l1], ?_⟩
      intro q hq
      have hq1 : o1._buffer ≠ some q := by
        rcases hptr with e | e
        · rw [e]; exact hq
        · rw [e]; exact fun hh => by cases hh
      rw [f2 q hq1, f1 q hq]

/-- The copy constructor in memory: the new object points to a new array at the
end of the memory and has the state `cbuffer.ctor_copy` returns; the source is
left as it was. -/
theorem obj_copy_spec [Inhabited α] (nd : Bool) (m : List (List α)) (A : cbuffer_obj)
    (hlive : A.live m = true) (w : WF (A.state m)) :
    ∃ b m1 B, cbuffer.ctor_copy nd (A.state m) = .ok b ∧
      cbuffer_obj.copy nd m A = .ok (m1, B) ∧ B._buffer = some m.length ∧
      m1.length = m.length + 1 ∧ B.state m1 = b ∧ A.state m1 = A.state m := by
  obtain ⟨b, hb, -, ⟨l, hl⟩, -⟩ := ctor_copy_spec nd (A.state m) w
  refine ⟨b, m ++ [l], ⟨some m.length, b._capacity, b._currentSize, b._head, b._tail⟩,
    hb, ?_, rfl, by simp, ?_, ?_⟩
  · unfold cbuffer_obj.copy
    rw [hb]
    simp only [hl, Option.getD_some]
  · unfold cbuffer_obj.state
    simp only [List.getElem?_append_right (Nat.le_refl _), Nat.sub_self,
      List.getElem?_cons_zero]
    cases b
    simp only at hl
    rw [hl]
  · apply state_congr
    intro q hq
    unfold cbuffer_obj.live at hlive
    rw [hq] at hlive
    exact List.getElem?_append_left (of_decide_eq_true hlive)

end Memory

/-! ## The copy of a buffer whose index sums wrap -/

section Large4

variable {α : Type}

theorem ctor_copy_eq [Inhabited α] (nd : Bool) (la : List α) (c n h t : Nat) :
    cbuffer.ctor_copy nd ⟨some la, c, n, h, t⟩ =
      cbuffer.copy_loop nd ⟨some la, c, n, h, t⟩ n 0
        ⟨some (List.replicate c default), c, n, h, t⟩ := rfl

/-- At capacity `2^32-1` and head `2^32-2` the index 0 is read from slot
`2^32-2`. -/
theorem big_index_last0 (nd : Bool) (l : List α) (n t : Nat) (hn : 0 < n) :
    cbuffer.operator_index nd ⟨some l, 4294967295, n, 4294967294, t⟩ 0 =
      load (some l) 4294967294 := by
  rw [operator_index_eq nd l _ _ _ _ _ (by omega) hn]
  have e : uadd 4294967294 0 % 4294967295 = 4294967294 := by
    simp only [uadd, UINT_RANGE]
  rw [e]

/-- At capacity `2^32-1` and head `2^32-2` the index 2 is read from slot 0. -/
theorem big_index_last2_gen (nd : Bool) (l : List α) (n t : Nat) (hn : 2 < n) :
    cbuffer.operator_index nd ⟨some l, 4294967295, n, 4294967294, t⟩ 2 = load (some l) 0 := by
  rw [operator_index_eq nd l _ _ _ _ _ (by omega) hn]
  have e : uadd 4294967294 2 % 4294967295 = 0 := by
    simp only [uadd, UINT_RANGE]
  rw [e]

/-- The copy loop on a source of capacity `2^32-1`, head `2^32-2`, size 3 whose
slots `2^32-2` and 0 hold `x` and `y`: it assigns slot `2^32-2` once and slot 0
twice, and no other slot. -/
theorem big_copy_loop (la zs : List α) (x y : α)
    (hzs : zs.length = 4294967295) (hx : la[4294967294]? = some x) (hy : la[0]? = some y) :
    cbuffer.copy_loop false ⟨some la, 4294967295, 3, 4294967294, 0⟩ 3 0
        ⟨some zs, 4294967295, 3, 4294967294, 0⟩ =
      .ok ⟨some (((zs.set 4294967294 x).set 0 y).set 0 y), 4294967295, 3, 4294967294, 0⟩ := by
  have r0 : cbuffer.operator_index false
      (⟨some la, 4294967295, 3, 4294967294, 0⟩ : cbuffer α) 0 = .ok x := by
    rw [big_index_last0 _ _ _ _ (by omega)]; exact load_of_get _ _ _ hx
  have r1 : cbuffer.operator_index false
      (⟨some la, 4294967295, 3, 4294967294, 0⟩ : cbuffer α) 1 = .ok y := by
    rw [big_index_last1 _ _ _ _ (by omega)]; exact load_of_get _ _ _ hy
  have r2 : cbuffer.operator_index false
      (⟨some la, 4294967295, 3, 4294967294, 0⟩ : cbuffer α) 2 = .ok y := by
    rw [big_index_last2_gen _ _ _ _ (by omega)]; exact load_of_get _ _ _ hy
  have e0 : uadd 4294967294 0 % 4294967295 = 4294967294 := by simp only [uadd, UINT_RANGE]
  have e1 : uadd 4294967294 1 % 4294967295 = 0 := by simp only [uadd, UINT_RANGE]
  have e2 : uadd 4294967294 2 % 4294967295 = 0 := by simp only [uadd, UINT_RANGE]
  have w0 := assign_index_eq false zs 4294967295 3 4294967294 0 0 x (by omega) hzs (by omega)
  rw [e0] at w0
  have w1 := assign_index_eq false (zs.set 4294967294 x) 4294967295 3 4294967294 0 1 y
    (by omega) (by rw [List.length_set]; exact hzs) (by omega)
  rw [e1] at w1
  have w2 := assign_index_eq false ((zs.set 4294967294 x).set 0 y) 4294967295 3 4294967294 0 2 y
    (by omega) (by rw [List.length_set, List.length_set]; exact hzs) (by omega)
  rw [e2] at w2
  have u1 : uadd 0 1 = 1 := by simp only [uadd, UINT_RANGE]
  have u2 : uadd 1 1 = 2 := by simp only [uadd, UINT_RANGE]
  rw [copy_loop_succ 2 r0 w0, u1, copy_loop_succ 1 r1 w1, u2, copy_loop_succ 0 r2 w2,
    copy_loop_zero]

/-- The loop from `begin()` to `end()` on a buffer of capacity `2^32-1`, head
`2^32-2`, size 3 dereferences the slots `2^32-2`, 0 and 1. -/
theorem big_traverse_last (l : List α) (x y z : α) (t k : Nat)
    (hx : load (some l) 4294967294 = .ok x) (hy : load (some l) 0 = .ok y)
    (hz : load (some l) 1 = .ok z) :
    cbuffer.traverse (k + 4) ⟨some l, 4294967295, 3, 4294967294, t⟩ = some (.ok [x, y, z]) := by
  have i1 : iterator.incr ⟨some l, 4294967295, 4294967294, 3⟩ =
      .ok ⟨some l, 4294967295, 0, 2⟩ := by
    rw [incr_eq _ _ _ _ (by omega)]
    simp only [uadd, usub, UINT_RANGE]
  have i2 : iterator.incr ⟨some l, 4294967295, 0, 2⟩ = .ok ⟨some l, 4294967295, 1, 1⟩ := by
    rw [incr_eq _ _ _ _ (by omega)]
    simp only [uadd, usub, UINT_RANGE]
  have i3 : iterator.incr ⟨some l, 4294967295, 1, 1⟩ = .ok ⟨some l, 4294967295, 2, 0⟩ := by
    rw [incr_eq _ _ _ _ (by omega)]
    simp only [uadd, usub, UINT_RANGE]
  unfold cbuffer.traverse cbuffer.begin cbuffer.end_
  exact traverse_loop_step _ _ _ _ _ _ (show (3 : Nat) ≠ 0 by omega) hx i1
    (traverse_loop_step _ _ _ _ _ _ (show (2 : Nat) ≠ 0 by omega) hy i2
      (traverse_loop_step _ _ _ _ _ _ (show (1 : Nat) ≠ 0 by omega) hz i3
        (traverse_loop_done _ _ _ rfl)))

end Large4

/-! ## No slot never assigned is read, for capacities up to `2^31` -/

section Written

variable {β : Type}

theorem written_add_tail {b b' : cbuffer (Option β)} {v : β} (w : WF b)
    (hc : b._capacity ≤ 2147483648) (hw : b.written)
    (h : b.add_tail (some v) = .ok b') : b'.written := by
  have hc0 : b._capacity ≠ 0 := (add_tail_ok_inv h).1
  intro i hi nd
  obtain ⟨b1, hb1, -, hgrow, hfull, -, -⟩ := add_tail_post b (some v) w (by omega) hc nd
  rw [h] at hb1
  cases hb1
  have hsz := w.size_le
  by_cases hlt : b._currentSize < b._capacity
  · obtain ⟨e1, -, e3, e4⟩ := hgrow hlt
    rw [e1] at hi
    by_cases hi' : i < b._currentSize
    · rw [e3 i hi']; exact hw i hi' nd
    · have : i = b._currentSize := by omega
      subst this
      exact ⟨v, e4⟩
  · have heq : b._currentSize = b._capacity := by omega
    obtain ⟨e1, -, e3, e4⟩ := hfull heq
    rw [e1] at hi
    by_cases hi' : i + 1 < b._currentSize
    · rw [e3 i hi']; exact hw (i + 1) hi' nd
    · have : i = b._currentSize - 1 := by omega
      subst this
      exact ⟨v, e4⟩

theorem written_remove_head {nd : Bool} {b b' : cbuffer (Option β)} (w : WF b)
    (hc : b._capacity ≤ 2147483648) (hs : 0 < b._currentSize) (hw : b.written)
    (h : b.remove_head nd = .ok b') : b'.written := by
  intro i hi nd'
  obtain ⟨b1, hb1, e1, -, e3, -, -⟩ := remove_head_post b w hc hs nd nd'
  rw [h] at hb1
  cases hb1
  rw [e1] at hi
  rw [e3 i (by omega)]
  exact hw (i + 1) (by omega) nd'

theorem written_remove_tail {nd : Bool} {b b' : cbuffer (Option β)} (w : WF b)
    (hc : b._capacity ≤ 2147483648) (hs : 0 < b._currentSize) (hw : b.written)
    (h : b.remove_tail nd = .ok b') : b'.written := by
  intro i hi nd'
  obtain ⟨b1, hb1, e1, -, e3, -, -⟩ := remove_tail_post b w hc hs nd nd'
  rw [h] at hb1
  cases hb1
  rw [e1] at hi
  rw [e3 i hi]
  exact hw i (by omega) nd'

theorem written_run {ops : List (Op (Option β))} (hops : ∀ o ∈ ops, o.sets_value = true) :
    ∀ {b b' : cbuffer (Option β)}, WF b → b._capacity ≤ 2147483648 → b.written →
      run false ops b = .ok b' → WF b' ∧ b'._capacity ≤ 2147483648 ∧ b'.written := by
  induction ops with
  | nil =>
    intro b b' w hc hw h
    rw [run_nil] at h
    cases h
    exact ⟨w, hc, hw⟩
  | cons o os ih =>
    intro b b' w hc hw h
    have hos : ∀ o ∈ os, o.sets_value = true := fun x hx => hops x (List.mem_cons_of_mem _ hx)
    have ho := hops o (List.mem_cons_self _ _)
    rw [run] at h
    cases o with
    | add_tail x =>
      cases x with
      | none => exact absurd ho (by simp [Op.sets_value])
      | some v =>
        cases h1 : (b.add_tail (some v)) with
        | error e => simp only [Op.apply, h1] at h; cases h
        | ok b1 =>
          simp only [Op.apply, h1] at h
          have hcap : b1._capacity = b._capacity := by
            obtain ⟨b2, hb2, e2, -⟩ :=
              add_tail_post b (some v) w (Nat.pos_of_ne_zero (add_tail_ok_inv h1).1) hc false
            rw [h1] at hb2
            cases hb2
            exact e2
          exact ih hos (wf_add_tail w h1) (by omega) (written_add_tail w hc hw h1) h
    | remove_head =>
      cases h1 : (b.remove_head false) with
      | error e => simp only [Op.apply, h1] at h; cases h
      | ok b1 =>
        simp only [Op.apply, h1] at h
        have hs : 0 < b._currentSize := (remove_head_ok_inv h1).2.1 rfl
        obtain ⟨b2, hb2, -, e2, -⟩ := remove_head_post b w hc hs false false
        rw [h1] at hb2
        cases hb2
        exact ih hos (wf_remove_head w hs h1) (by omega) (written_remove_head w hc hs hw h1) h
    | remove_tail =>
      cases h1 : (b.remove_tail false) with
      | error e => simp only [Op.apply, h1] at h; cases h
      | ok b1 =>
        simp only [Op.apply, h1] at h
        have hs : 0 < b._currentSize := (remove_tail_ok_inv h1).2.1 rfl
        obtain ⟨b2, hb2, -, e2, -⟩ := remove_tail_post b w hc hs false false
        rw [h1] at hb2
        cases hb2
        exact ih hos (wf_remove_tail w hs h1) (by omega) (written_remove_tail w hc hs hw h1) h
    | clear =>
      simp only [Op.apply] at h
      refine ih hos (wf_clear b) (by simp [cbuffer.clear]) ?_ h
      intro i hi
      simp [cbuffer.clear] at hi

/-- A traversal of a buffer all of whose indices read a value yields no
`none`. -/
theorem written_traverse {b : cbuffer (Option β)} (w : WF b) (hc : b._capacity ≤ 2147483648)
    (hw : b.written) (fuel : Nat) (hf : b._currentSize < fuel) :
    ∃ vs, b.traverse fuel = some (.ok vs) ∧ vs.length = b._currentSize ∧
      ∀ x ∈ vs, x ≠ none := by
  obtain ⟨vs, h1, h2, h3⟩ := traverse_exact b w hc fuel hf
  refine ⟨vs, h1, h2, ?_⟩
  intro x hx
  obtain ⟨i, hi, rfl⟩ := List.getElem_of_mem hx
  obtain ⟨v, g1, g2⟩ := h3 i (by rw [← h2]; exact hi) false
  obtain ⟨v', g3⟩ := hw i (by unfold cbuffer.get_currentSize at h2; omega) false
  rw [g3] at g2
  cases g2
  rw [List.getElem?_eq_getElem hi] at g1
  rw [Option.some.inj g1]
  exact Option.some_ne_none v'

/-- For capacities up to `2^31`: after calls none of which stores `none`, on a
buffer built by `cbuffer(capacity)`, every index below the size and every
dereference of a traversal reads a value some `add_tail` stored, on the buffer
and on a copy of it. -/
theorem no_unwritten_read_small_capacity (capacity : Nat) (hc : capacity ≤ 2147483648)
    (ops : List (Op (Option β))) (hops : ∀ o ∈ ops, o.sets_value = true)
    (b : cbuffer (Option β))
    (hrun : run false ops (cbuffer.ctor_capacity capacity) = .ok b) :
    b.written ∧
    (∀ fuel, b._currentSize < fuel →
      ∃ vs, b.traverse fuel = some (.ok vs) ∧ vs.length = b._currentSize ∧
        ∀ x ∈ vs, x ≠ none) ∧
    ∃ b', cbuffer.ctor_copy false b = .ok b' ∧ b'.written ∧
      ∀ fuel, b'._currentSize < fuel →
        ∃ vs, b'.traverse fuel = some (.ok vs) ∧ vs.length = b'._currentSize ∧
          ∀ x ∈ vs, x ≠ none := by
  have w0 : WF (cbuffer.ctor_capacity capacity : cbuffer (Option β)) :=
    wf_ctor_capacity capacity (by unfold UINT_RANGE; omega)
  have hw0 : (cbuffer.ctor_capacity capacity : cbuffer (Option β)).written := by
    intro i hi
    simp [cbuffer.ctor_capacity] at hi
  obtain ⟨w, hcb, hw⟩ := written_run hops w0 (by simpa [cbuffer.ctor_capacity] using hc) hw0 hrun
  refine ⟨hw, fun fuel hf => written_traverse w hcb hw fuel hf, ?_⟩
  obtain ⟨b', h1, w', -, e1, e2, -, -, e5⟩ := ctor_copy_spec false b w
  have hw' : b'.written := by
    intro i hi nd
    rw [e2] at hi
    obtain ⟨v, g1, g2⟩ := e5 i hi nd
    obtain ⟨v', g3⟩ := hw i hi nd
    rw [g3] at g2
    cases g2
    exact ⟨v', g1⟩
  exact ⟨b', h1, hw', fun fuel hf => written_traverse w' (by omega) hw' fuel hf⟩

end Written

/-! ## Claims -/

section Claims

variable {α : Type}

/-- C1, failing input: capacity `c = 4294967295`, `k = 2`, `xs` = 4294967295
zeros followed by 1, 2.  All `c + k` calls of `add_tail` on `cbuffer(c)` return
and leave `get_currentSize() == c`, but `operator[](c - 2)` is 2 while
`xs[k + (c - 2)]` is 1: with head 1 and size `c` the sum `_head + _currentSize`
wraps in `unsigned int`, so the last `add_tail` stored 2 over the 1 in slot 0. -/
theorem C1_fifo_overflow :
    ∃ b : cbuffer Nat,
      cbuffer.add_all (cbuffer.ctor_capacity 4294967295)
        (List.replicate 4294967295 0 ++ [1, 2]) = .ok b ∧
      b.get_currentSize = 4294967295 ∧
      b.operator_index false 4294967293 = .ok 2 ∧
      (List.replicate 4294967295 0 ++ [1, 2])[2 + 4294967293]? = some 1 := by
  have hl : (List.replicate 4294967295 (0 : Nat)).length = 4294967295 :=
    List.length_replicate _ _
  generalize List.replicate 4294967295 (0 : Nat) = ys at hl ⊢
  refine ⟨_, big_full_plus2 ys hl, rfl, ?_, ?_⟩
  · rw [big_index_head2, load_set_same _ _ _ (by rw [List.length_set, hl]; omega)]
  · rw [List.getElem?_append_right (by omega)]
    have e : 2 + 4294967293 - ys.length = 0 := by omega
    rw [e]
    rfl

/-- C2, failing input: the buffer left by `cbuffer(4294967295)`, `add_tail` of
4294967295 zeros, 4294967294 calls of `remove_head()`, `add_tail(1)`,
`add_tail(2)` (size 3, head 4294967294).  The loop from `begin()` to `end()`
ends after 3 dereferences and yields 0, 2, 0 (slots 4294967294, 0, 1), while
`operator[]` gives 0, 2, 2: for index 2 the sum `_head + index` wraps in
`unsigned int` and slot 0 is read instead of slot 1. -/
theorem C2_traversal_overflow :
    ∃ b : cbuffer Nat,
      run false ((List.replicate 4294967295 0).map Op.add_tail ++
        (List.replicate 4294967294 Op.remove_head ++ [Op.add_tail 1, Op.add_tail 2]))
        (cbuffer.ctor_capacity 4294967295) = .ok b ∧
      b.get_currentSize = 3 ∧
      (∀ k, b.traverse (k + 4) = some (.ok [0, 2, 0])) ∧
      b.operator_index false 0 = .ok 0 ∧
      b.operator_index false 1 = .ok 2 ∧
      b.operator_index false 2 = .ok 2 := by
  have hl : (List.replicate 4294967295 (0 : Nat)).length = 4294967295 :=
    List.length_replicate _ _
  have g1 : (List.replicate 4294967295 (0 : Nat))[1]? = some 0 := by
    rw [List.getElem?_replicate, if_pos (by omega)]
  have g2 : (List.replicate 4294967295 (0 : Nat))[4294967294]? = some 0 := by
    rw [List.getElem?_replicate, if_pos (by omega)]
  generalize List.replicate 4294967295 (0 : Nat) = ys at hl g1 g2 ⊢
  have hl1 : (ys.set 0 1).length = 4294967295 := by rw [List.length_set]; exact hl
  have d0 : load (some ((ys.set 0 1).set 0 2)) 0 = .ok 2 := load_set_same _ _ _ (by omega)
  have d1 : load (some ((ys.set 0 1).set 0 2)) 1 = .ok 0 := by
    rw [load_set_other _ _ _ _ (by omega), load_set_other _ _ _ _ (by omega)]
    exact load_of_get _ _ _ g1
  have d2 : load (some ((ys.set 0 1).set 0 2)) 4294967294 = .ok 0 := by
    rw [load_set_other _ _ _ _ (by omega), load_set_other _ _ _ _ (by omega)]
    exact load_of_get _ _ _ g2
  refine ⟨_, big_star ys hl, rfl, ?_, ?_, ?_, ?_⟩
  · intro k
    have i1 : iterator.incr ⟨some ((ys.set 0 1).set 0 2), 4294967295, 4294967294, 3⟩ =
        .ok ⟨some ((ys.set 0 1).set 0 2), 4294967295, 0, 2⟩ := by
      rw [incr_eq _ _ _ _ (by omega)]
      simp only [uadd, usub, UINT_RANGE]
    have i2 : iterator.incr ⟨some ((ys.set 0 1).set 0 2), 4294967295, 0, 2⟩ =
        .ok ⟨some ((ys.set 0 1).set 0 2), 4294967295, 1, 1⟩ := by
      rw [incr_eq _ _ _ _ (by omega)]
      simp only [uadd, usub, UINT_RANGE]
    have i3 : iterator.incr ⟨some ((ys.set 0 1).set 0 2), 4294967295, 1, 1⟩ =
        .ok ⟨some ((ys.set 0 1).set 0 2), 4294967295, 2, 0⟩ := by
      rw [incr_eq _ _ _ _ (by omega)]
      simp only [uadd, usub, UINT_RANGE]
    unfold cbuffer.traverse cbuffer.begin cbuffer.end_
    exact traverse_loop_step _ _ _ _ _ _ (show (3 : Nat) ≠ 0 by omega) d2 i1
      (traverse_loop_step _ _ _ _ _ _ (show (2 : Nat) ≠ 0 by omega) d0 i2
        (traverse_loop_step _ _ _ _ _ _ (show (1 : Nat) ≠ 0 by omega) d1 i3
          (traverse_loop_done _ _ _ rfl)))
  · rw [operator_index_eq false _ _ _ _ _ _ (by omega) (by omega)]
    have e : uadd 4294967294 0 % 4294967295 = 4294967294 := by
      simp only [uadd, UINT_RANGE]
    rw [e]
    exact d2
  · rw [operator_index_eq false _ _ _ _ _ _ (by omega) (by omega)]
    have e : uadd 4294967294 1 % 4294967295 = 0 := by
      simp only [uadd, UINT_RANGE]
    rw [e]
    exact d0
  · rw [big_index_last2]
    exact d0

/-- C3 (capacity invariant): in every state reachable from any constructor
(default, `cbuffer(capacity)`, range constructor, copy) by any sequence of
`add_tail`, `remove_head`, `remove_tail`, `clear`, `swap` and assignment calls
whose preconditions hold, `get_currentSize() <= get_capacity()`. -/
theorem C3_capacity_invariant [Inhabited α] (b : cbuffer α) (h : Reach b) :
    b.get_currentSize ≤ b.get_capacity :=
  h.wf.size_le

/-- C3, at the full buffer left by `cbuffer(3)` and `add_tail` of 1, 2, 3, 4. -/
theorem C3_capacity_invariant_witness :
    Reach (⟨some [4, 2, 3], 3, 3, 1, 0⟩ : cbuffer Nat) ∧
      (⟨some [4, 2, 3], 3, 3, 1, 0⟩ : cbuffer Nat).get_currentSize ≤
        (⟨some [4, 2, 3], 3, 3, 1, 0⟩ : cbuffer Nat).get_capacity :=
  have hr : Reach (⟨some [4, 2, 3], 3, 3, 1, 0⟩ : cbuffer Nat) :=
    reach_of_run (Reach.ctor_capacity 3 (by decide))
      (show run false [.add_tail 1, .add_tail 2, .add_tail 3, .add_tail 4]
        (cbuffer.ctor_capacity 3 : cbuffer Nat) = .ok ⟨some [4, 2, 3], 3, 3, 1, 0⟩ from rfl)
  ⟨hr, C3_capacity_invariant _ hr⟩

/-- C4, failing input: `cbuffer(4294967295)`, `add_tail` of 1, 2, 3, then
`remove_tail()`.  The calls return with size 2, head 0 and `_tail == 0`, while
`(head + size - 1) mod capacity` is 1: in `_tail + _capacity - 1` the sum
`2 + 4294967295` wraps to 1 in `unsigned int`. -/
theorem C4_tail_relation_overflow :
    ∃ b : cbuffer Nat,
      run false [.add_tail 1, .add_tail 2, .add_tail 3, .remove_tail]
        (cbuffer.ctor_capacity 4294967295) = .ok b ∧
      b._currentSize = 2 ∧ b._head = 0 ∧ b._capacity = 4294967295 ∧ b._tail = 0 ∧
      (b._head + b._currentSize - 1) % b._capacity = 1 := by
  have hl : (List.replicate 4294967295 (default : Nat)).length = 4294967295 :=
    List.length_replicate _ _
  unfold cbuffer.ctor_capacity
  generalize List.replicate 4294967295 (default : Nat) = ys at hl ⊢
  refine ⟨_, big_three_remove_tail ys hl, rfl, rfl, rfl, rfl, ?_⟩
  show (0 + 2 - 1) % 4294967295 = 1
  norm_num

/-- C5, failing input: the full buffer `b` left by `cbuffer(4294967295)` and
`add_tail` of 4294967295 zeros and of 1 (head 1), then `add_tail(2)`.  The call
returns `b'`, but `b'[c - 2]` is 2 while the old `b[c - 1]` is 1 (the new value
went to the slot of the newest element, not of the oldest), and `_tail` is 0
while `(head + size - 1) mod capacity` is 1. -/
theorem C5_add_tail_overflow :
    ∃ b b' : cbuffer Nat,
      cbuffer.add_all (cbuffer.ctor_capacity 4294967295)
        (List.replicate 4294967295 0 ++ [1]) = .ok b ∧
      b._currentSize = 4294967295 ∧ b._capacity = 4294967295 ∧
      b.add_tail 2 = .ok b' ∧
      b.operator_index false 4294967294 = .ok 1 ∧
      b'.operator_index false 4294967293 = .ok 2 ∧
      b'._tail = 0 ∧ (b'._head + b'._currentSize - 1) % b'._capacity = 1 := by
  have hl : (List.replicate 4294967295 (0 : Nat)).length = 4294967295 :=
    List.length_replicate _ _
  generalize List.replicate 4294967295 (0 : Nat) = ys at hl ⊢
  have hl1 : (ys.set 0 1).length = 4294967295 := by rw [List.length_set]; exact hl
  refine ⟨_, _, big_full_plus1 ys hl, rfl, rfl, big_add_tail_full1 _ hl1 _ 2, ?_, ?_, rfl, ?_⟩
  · rw [big_index_head1, load_set_same _ _ _ (by omega)]
  · rw [big_index_head2, load_set_same _ _ _ (by omega)]
  · show (2 + 4294967295 - 1) % 4294967295 = 1
    norm_num

/-- C6, failing input: on the buffer `b` left by `cbuffer(4294967295)`,
`add_tail` of 4294967295 zeros, 4294967294 calls of `remove_head()`,
`add_tail(1)`, `add_tail(2)` (size 3, head 4294967294) `remove_head()` returns
`b'` with `b'[1] == 0`, while the old `b[2]` is 2: before the call index 2 was
read from slot 0 (the sum `_head + index` wrapped), after it index 1 is read
from slot 1. -/
theorem C6_remove_head_overflow :
    ∃ b b' : cbuffer Nat,
      run false ((List.replicate 4294967295 0).map Op.add_tail ++
        (List.replicate 4294967294 Op.remove_head ++ [Op.add_tail 1, Op.add_tail 2]))
        (cbuffer.ctor_capacity 4294967295) = .ok b ∧
      b._currentSize = 3 ∧
      b.remove_head false = .ok b' ∧
      b.operator_index false 2 = .ok 2 ∧
      b'.operator_index false 1 = .ok 0 := by
  have hl : (List.replicate 4294967295 (0 : Nat)).length = 4294967295 :=
    List.length_replicate _ _
  have g1 : (List.replicate 4294967295 (0 : Nat))[1]? = some 0 := by
    rw [List.getElem?_replicate, if_pos (by omega)]
  generalize List.replicate 4294967295 (0 : Nat) = ys at hl g1 ⊢
  have hl1 : (ys.set 0 1).length = 4294967295 := by rw [List.length_set]; exact hl
  refine ⟨_, _, big_star ys hl, rfl, big_remove_head_last false _, ?_, ?_⟩
  · rw [big_index_last2, load_set_same _ _ _ (by omega)]
  · rw [big_index_first1, load_set_other _ _ _ _ (by omega),
      load_set_other _ _ _ _ (by omega)]
    exact load_of_get _ _ _ g1

/-- C7, failing input: on the buffer left by `cbuffer(4294967295)` and `add_tail`
of 1, 2, 3 (size 3, head 0, tail 2) `remove_tail()` returns with size 2 and
`_tail == 0`; the old tail moved back by one modulo the capacity is 1. -/
theorem C7_remove_tail_overflow :
    ∃ b b' : cbuffer Nat,
      run false [.add_tail 1, .add_tail 2, .add_tail 3] (cbuffer.ctor_capacity 4294967295)
        = .ok b ∧
      b._currentSize = 3 ∧ b._capacity = 4294967295 ∧ b._tail = 2 ∧
      b.remove_tail false = .ok b' ∧
      b'._currentSize = 2 ∧ b'._tail = 0 ∧ (b._tail + b._capacity - 1) % b._capacity = 1 := by
  have hl : (List.replicate 4294967295 (default : Nat)).length = 4294967295 :=
    List.length_replicate _ _
  unfold cbuffer.ctor_capacity
  generalize List.replicate 4294967295 (default : Nat) = ys at hl ⊢
  refine ⟨_, _, big_three ys hl, rfl, rfl, rfl, big_remove_tail3 false _, rfl, rfl, ?_⟩
  show (2 + 4294967295 - 1) % 4294967295 = 1
  norm_num

/-- C8 (empty-state canonicalization): for every capacity `c >= 1` and every
sequence of `add_tail`, `remove_head` and `remove_tail` calls on `cbuffer(c)`
whose preconditions hold and that ends with size 0 (so in particular every
reachable buffer followed by any mix of `remove_head` and `remove_tail` that
empties it), head and tail are 0, and for every list `vs`, `add_tail` of each
element of `vs` returns on the emptied buffer and on a fresh `cbuffer(c)` with the
same size, head index, tail index and the same `operator[](i)` for every
`i < size`. -/
theorem C8_empty_state_canonical [Inhabited α] (c : Nat) (hc1 : 1 ≤ c)
    (hc2 : c < UINT_RANGE) (ops : List (Op α)) (hops : ∀ o ∈ ops, o.is_clear = false)
    (e : cbuffer α) (hrun : run false ops (cbuffer.ctor_capacity c) = .ok e)
    (hempty : e.get_currentSize = 0) :
    e.get_head_physical_index = 0 ∧ e.get_tail_physical_index = 0 ∧
      ∀ vs : List α, ∃ e' f' : cbuffer α,
        e.add_all vs = .ok e' ∧ (cbuffer.ctor_capacity c).add_all vs = .ok f' ∧
        e'.get_currentSize = f'.get_currentSize ∧
        e'.get_head_physical_index = f'.get_head_physical_index ∧
        e'.get_tail_physical_index = f'.get_tail_physical_index ∧
        ∀ i, i < e'.get_currentSize → ∀ nd, ∃ v,
          e'.operator_index nd i = .ok v ∧ f'.operator_index nd i = .ok v := by
  have w0 : WF (cbuffer.ctor_capacity c : cbuffer α) := wf_ctor_capacity c hc2
  obtain ⟨we, hcap, h0⟩ := run_from_ctor c hc2 ops hops _ e w0 rfl (fun _ => ⟨rfl, rfl⟩) hrun
  obtain ⟨hh, ht⟩ := h0 hempty
  refine ⟨hh, ht, ?_⟩
  intro vs
  have hc0 : e._capacity ≠ 0 := by omega
  obtain ⟨le, hle, -⟩ := we.storage_ex hc0
  have hal : Alike e (cbuffer.ctor_capacity c) := by
    refine ⟨we, w0, hc0, hcap, hempty, hh, ht, le, List.replicate c default, hle, rfl, ?_⟩
    left
    unfold cbuffer.get_currentSize at hempty
    exact ⟨by omega, hh, fun j hj => by omega⟩
  obtain ⟨e', f', he', hf', hal'⟩ := alike_add_all vs hal
  refine ⟨e', f', he', hf', hal'.2.2.2.2.1, hal'.2.2.2.2.2.1, hal'.2.2.2.2.2.2.1, ?_⟩
  intro i hi nd
  exact alike_index hal' nd i hi

/-- C8, at `cbuffer(2)` emptied by `add_tail` of 1, 2, 3, `remove_head()`,
`remove_tail()` (the array still holds 3 and 2). -/
theorem C8_empty_state_canonical_witness :
    (1 ≤ 2 ∧ 2 < UINT_RANGE ∧
      (∀ o ∈ [Op.add_tail 1, .add_tail 2, .add_tail 3, .remove_head, .remove_tail],
        o.is_clear = false) ∧
      run false [Op.add_tail 1, .add_tail 2, .add_tail 3, .remove_head, .remove_tail]
        (cbuffer.ctor_capacity 2 : cbuffer Nat) = .ok ⟨some [3, 2], 2, 0, 0, 0⟩ ∧
      (⟨some [3, 2], 2, 0, 0, 0⟩ : cbuffer Nat).get_currentSize = 0) ∧
    ((⟨some [3, 2], 2, 0, 0, 0⟩ : cbuffer Nat).get_head_physical_index = 0 ∧
      (⟨some [3, 2], 2, 0, 0, 0⟩ : cbuffer Nat).get_tail_physical_index = 0 ∧
      ∀ vs : List Nat, ∃ e' f' : cbuffer Nat,
        (⟨some [3, 2], 2, 0, 0, 0⟩ : cbuffer Nat).add_all vs = .ok e' ∧
        (cbuffer.ctor_capacity 2).add_all vs = .ok f' ∧
        e'.get_currentSize = f'.get_currentSize ∧
        e'.get_head_physical_index = f'.get_head_physical_index ∧
        e'.get_tail_physical_index = f'.get_tail_physical_index ∧
        ∀ i, i < e'.get_currentSize → ∀ nd, ∃ v,
          e'.operator_index nd i = .ok v ∧ f'.operator_index nd i = .ok v) :=
  ⟨⟨by decide, by decide, by decide, rfl, rfl⟩,
    C8_empty_state_canonical 2 (by decide) (by decide)
      [Op.add_tail 1, .add_tail 2, .add_tail 3, .remove_head, .remove_tail] (by decide)
      ⟨some [3, 2], 2, 0, 0, 0⟩ (by rfl) (by rfl)⟩

/-- C9, as stated, fails in a build with `NDEBUG` defined: on the empty
`cbuffer(1)` the call `remove_head()` returns and leaves `_currentSize == 2^32 - 1`,
`remove_tail()` does the same, and `operator[](0)`, `get_head()` return the value of
an unwritten slot. -/
theorem C9_ndebug_counterexample :
    Reach (cbuffer.ctor_capacity 1 : cbuffer Nat) ∧
      (cbuffer.ctor_capacity 1 : cbuffer Nat).get_currentSize = 0 ∧
      (cbuffer.ctor_capacity 1 : cbuffer Nat).remove_head true
        = .ok ⟨some [0], 1, 4294967295, 0, 0⟩ ∧
      (cbuffer.ctor_capacity 1 : cbuffer Nat).remove_tail true
        = .ok ⟨some [0], 1, 4294967295, 0, 0⟩ ∧
      (cbuffer.ctor_capacity 1 : cbuffer Nat).operator_index true 0 = .ok 0 ∧
      (cbuffer.ctor_capacity 1 : cbuffer Nat).get_head true = .ok 0 :=
  ⟨Reach.ctor_capacity 1 (by decide), rfl, rfl, rfl, rfl, rfl⟩

/-- C9 (amended): in a build with the assertions on (`NDEBUG` not defined), for
every buffer, `operator[](i)` with `i >= get_currentSize()` stops at its
assertion, and `remove_head()`, `remove_tail()`, `get_head()` and `get_tail()`
on a buffer with `get_currentSize() == 0` stop at theirs; the assertion is the
first statement, so no value is returned and no data member was written. -/
theorem C9_assertions_reject (b : cbuffer α) :
    (∀ i, b.get_currentSize ≤ i → b.operator_index false i = .error .assertion) ∧
      (b.get_currentSize = 0 →
        b.remove_head false = .error .assertion ∧
        b.remove_tail false = .error .assertion ∧
        b.get_head false = .error .assertion ∧
        b.get_tail false = .error .assertion) := by
  constructor
  · intro i hi
    unfold cbuffer.get_currentSize at hi
    unfold cbuffer.operator_index
    rw [if_pos ⟨rfl, by omega⟩]
  · intro h0
    unfold cbuffer.get_currentSize at h0
    refine ⟨?_, ?_, ?_, ?_⟩
    · unfold cbuffer.remove_head
      rw [if_pos ⟨rfl, by omega⟩]
    · unfold cbuffer.remove_tail
      rw [if_pos ⟨rfl, by omega⟩]
    · unfold cbuffer.get_head cbuffer.operator_index
      rw [if_pos ⟨rfl, by omega⟩]
    · unfold cbuffer.get_tail cbuffer.operator_index
      rw [if_pos ⟨rfl, by omega⟩]

/-- C9 (amended), at the buffer left by `cbuffer(2)`, `add_tail(7)`,
`add_tail(8)`, `remove_tail()` (index 1 is out of range, slot 1 holds 8) and at
the empty `cbuffer(2)`. -/
theorem C9_assertions_reject_witness :
    (⟨some [7, 8], 2, 1, 0, 0⟩ : cbuffer Nat).get_currentSize ≤ 1 ∧
      (⟨some [7, 8], 2, 1, 0, 0⟩ : cbuffer Nat).operator_index false 1 = .error .assertion ∧
      (cbuffer.ctor_capacity 2 : cbuffer Nat).get_currentSize = 0 ∧
      ((cbuffer.ctor_capacity 2 : cbuffer Nat).remove_head false = .error .assertion ∧
        (cbuffer.ctor_capacity 2 : cbuffer Nat).remove_tail false = .error .assertion ∧
        (cbuffer.ctor_capacity 2 : cbuffer Nat).get_head false = .error .assertion ∧
        (cbuffer.ctor_capacity 2 : cbuffer Nat).get_tail false = .error .assertion) :=
  ⟨by decide, (C9_assertions_reject _).1 1 (by decide), rfl,
    (C9_assertions_reject (cbuffer.ctor_capacity 2 : cbuffer Nat)).2 rfl⟩

/-- C10 (zero-capacity edge case): a buffer constructed with capacity 0
(`cbuffer(0)` or the default constructor) has `get_currentSize() == 0` and
`get_capacity() == 0` in every state a sequence of `add_tail`, `remove_head`,
`remove_tail` and `clear` calls can return in (in either build), and every
`add_tail(v)` on such a state fails at the modulo by `_capacity == 0`, before
the store and before any data member is written. -/
theorem C10_zero_capacity [Inhabited α] (nd : Bool) (ops : List (Op α))
    (b0 b : cbuffer α) (h0 : b0 = cbuffer.ctor_capacity 0 ∨ b0 = cbuffer.ctor_default)
    (hrun : run nd ops b0 = .ok b) :
    b.get_currentSize = 0 ∧ b.get_capacity = 0 ∧
      ∀ v, b.add_tail v = .error .division_by_zero := by
  have key : ∀ (ops : List (Op α)) (s s' : cbuffer α), s._capacity = 0 → s._currentSize = 0 →
      run nd ops s = .ok s' → s'._capacity = 0 ∧ s'._currentSize = 0 := by
    intro ops
    induction ops with
    | nil =>
      intro s s' hc hs h
      simp only [run] at h
      cases h
      exact ⟨hc, hs⟩
    | cons o os ih =>
      intro s s' hc hs h
      simp only [run] at h
      cases ho : o.apply nd s with
      | error e => simp only [ho] at h; cases h
      | ok s1 =>
        simp only [ho] at h
        cases o with
        | add_tail v => exact absurd hc (add_tail_ok_inv ho).1
        | remove_head => exact absurd hc (remove_head_ok_inv ho).1
        | remove_tail => exact absurd hc (remove_tail_ok_inv ho).1
        | clear =>
          simp only [Op.apply] at ho
          cases ho
          exact ih _ _ rfl rfl h
  have hb : b._capacity = 0 ∧ b._currentSize = 0 := by
    rcases h0 with h0 | h0 <;> subst h0 <;> exact key ops _ _ rfl rfl hrun
  refine ⟨hb.2, hb.1, ?_⟩
  intro v
  unfold cbuffer.add_tail
  rw [if_pos hb.1]

/-- C10, at `cbuffer(0)` followed by `clear()`. -/
theorem C10_zero_capacity_witness :
    ((cbuffer.ctor_capacity 0 : cbuffer Nat) = cbuffer.ctor_capacity 0 ∨
        (cbuffer.ctor_capacity 0 : cbuffer Nat) = cbuffer.ctor_default) ∧
      run false [Op.clear] (cbuffer.ctor_capacity 0 : cbuffer Nat) = .ok ⟨none, 0, 0, 0, 0⟩ ∧
      ((⟨none, 0, 0, 0, 0⟩ : cbuffer Nat).get_currentSize = 0 ∧
        (⟨none, 0, 0, 0, 0⟩ : cbuffer Nat).get_capacity = 0 ∧
        ∀ v, (⟨none, 0, 0, 0, 0⟩ : cbuffer Nat).add_tail v = .error .division_by_zero) :=
  ⟨Or.inl rfl, rfl,
    C10_zero_capacity false [Op.clear] (cbuffer.ctor_capacity 0) ⟨none, 0, 0, 0, 0⟩
      (Or.inl rfl) rfl⟩

/-- C12 (concrete scenario): from `cbuffer(3)`, after `add_tail` of 1, 2, 3, 4
the logical contents are 2, 3, 4 with `get_head() == 2`, `get_tail() == 4`;
after `remove_head()` they are 3, 4; after `add_tail(5)` they are 3, 4, 5; after
`remove_tail()` they are 3, 4 (read through `operator[]` and through the
iterators). -/
theorem C12_concrete_scenario :
    ∃ b1 b2 b3 b4 : cbuffer Nat,
      run false [.add_tail 1, .add_tail 2, .add_tail 3, .add_tail 4]
        (cbuffer.ctor_capacity 3) = .ok b1 ∧
      b1.get_currentSize = 3 ∧ b1.operator_index false 0 = .ok 2 ∧
      b1.operator_index false 1 = .ok 3 ∧ b1.operator_index false 2 = .ok 4 ∧
      b1.traverse 4 = some (.ok [2, 3, 4]) ∧
      b1.get_head false = .ok 2 ∧ b1.get_tail false = .ok 4 ∧
      b1.remove_head false = .ok b2 ∧
      b2.get_currentSize = 2 ∧ b2.operator_index false 0 = .ok 3 ∧
      b2.operator_index false 1 = .ok 4 ∧ b2.traverse 3 = some (.ok [3, 4]) ∧
      b2.add_tail 5 = .ok b3 ∧
      b3.get_currentSize = 3 ∧ b3.operator_index false 0 = .ok 3 ∧
      b3.operator_index false 1 = .ok 4 ∧ b3.operator_index false 2 = .ok 5 ∧
      b3.traverse 4 = some (.ok [3, 4, 5]) ∧
      b3.remove_tail false = .ok b4 ∧
      b4.get_currentSize = 2 ∧ b4.operator_index false 0 = .ok 3 ∧
      b4.operator_index false 1 = .ok 4 ∧ b4.traverse 3 = some (.ok [3, 4]) :=
  ⟨⟨some [4, 2, 3], 3, 3, 1, 0⟩, ⟨some [4, 2, 3], 3, 2, 2, 0⟩, ⟨some [4, 5, 3], 3, 3, 2, 1⟩,
    ⟨some [4, 5, 3], 3, 2, 2, 0⟩,
    rfl, rfl, rfl, rfl, rfl, rfl, rfl, rfl, rfl, rfl, rfl, rfl, rfl, rfl, rfl, rfl, rfl, rfl,
    rfl, rfl, rfl, rfl, rfl, rfl⟩

/-- C14 (clear): for every buffer, after `clear()` the state is capacity 0, size
0, head 0, tail 0 with `_buffer == nullptr`, which is the state the default
constructor produces, and a second `clear()` gives the same state again. -/
theorem C14_clear (b : cbuffer α) :
    b.clear._buffer = none ∧ b.clear.get_capacity = 0 ∧ b.clear.get_currentSize = 0 ∧
      b.clear.get_head_physical_index = 0 ∧ b.clear.get_tail_physical_index = 0 ∧
      b.clear = cbuffer.ctor_default ∧ b.clear.clear = b.clear :=
  ⟨rfl, rfl, rfl, rfl, rfl, rfl, rfl⟩

/-- C15, as stated, fails for `clear()`: `cbuffer(3)` has capacity 3 and after
`clear()` the capacity is 0. -/
theorem C15_clear_counterexample :
    (cbuffer.ctor_capacity 3 : cbuffer Nat).get_capacity = 3 ∧
      (cbuffer.ctor_capacity 3 : cbuffer Nat).clear.get_capacity = 0 :=
  ⟨rfl, rfl⟩

/-- C15 (amended): for every buffer constructed with capacity `c` (by
`cbuffer(c)` or by the range constructor) and every sequence of `add_tail`,
`remove_head` and `remove_tail` calls that return, `get_capacity()` is still
`c`; `clear()` sets the capacity to 0. -/
theorem C15_capacity_kept [Inhabited α] (nd : Bool) (c : Nat) (xs : List α)
    (b0 b : cbuffer α) (ops : List (Op α))
    (h0 : b0 = cbuffer.ctor_capacity c ∨ cbuffer.ctor_range c xs = .ok b0)
    (hops : ∀ o ∈ ops, o.is_clear = false) (hrun : run nd ops b0 = .ok b) :
    b0.get_capacity = c ∧ b.get_capacity = c ∧ b.clear.get_capacity = 0 := by
  have hb0 : b0._capacity = c := by
    rcases h0 with h0 | h0
    · rw [h0]; rfl
    · have := @run_capacity α nd (xs.map Op.add_tail)
        (by intro o ho; obtain ⟨x, -, rfl⟩ := List.mem_map.1 ho; rfl)
        (cbuffer.ctor_capacity c) b0 (by rw [run_map_add_tail]; exact h0)
      rw [this]; rfl
  exact ⟨hb0, by unfold cbuffer.get_capacity; rw [run_capacity hops hrun, hb0], rfl⟩

/-- C15 (amended), at `cbuffer(2)` followed by `add_tail` of 1, 2, 3,
`remove_head()`, `remove_tail()`. -/
theorem C15_capacity_kept_witness :
    ((⟨some [0, 0], 2, 0, 0, 0⟩ : cbuffer Nat) = cbuffer.ctor_capacity 2 ∨
        cbuffer.ctor_range 2 [] = .ok (⟨some [0, 0], 2, 0, 0, 0⟩ : cbuffer Nat)) ∧
      (∀ o ∈ [Op.add_tail 1, .add_tail 2, .add_tail 3, .remove_head, .remove_tail],
        o.is_clear = false) ∧
      run false [Op.add_tail 1, .add_tail 2, .add_tail 3, .remove_head, .remove_tail]
        (⟨some [0, 0], 2, 0, 0, 0⟩ : cbuffer Nat) = .ok ⟨some [3, 2], 2, 0, 0, 0⟩ ∧
      ((⟨some [0, 0], 2, 0, 0, 0⟩ : cbuffer Nat).get_capacity = 2 ∧
        (⟨some [3, 2], 2, 0, 0, 0⟩ : cbuffer Nat).get_capacity = 2 ∧
        (⟨some [3, 2], 2, 0, 0, 0⟩ : cbuffer Nat).clear.get_capacity = 0) :=
  ⟨Or.inl rfl, by decide, rfl,
    C15_capacity_kept false 2 [] ⟨some [0, 0], 2, 0, 0, 0⟩ ⟨some [3, 2], 2, 0, 0, 0⟩
      [Op.add_tail 1, .add_tail 2, .add_tail 3, .remove_head, .remove_tail]
      (Or.inl rfl) (by decide) (by rfl)⟩

/-- C16, failing input: capacity 4294967295, head 4294967294, size 3 (the buffer
left by `cbuffer(4294967295)`, `add_tail` of 4294967295 zeros, 4294967294 calls of
`remove_head()`, `add_tail(1)`, `add_tail(2)`), index 2.  `operator[](2)` reads
slot `((head + 2) mod 2^32) mod capacity = 0`, while `(head + 2) mod capacity`
is 1. -/
theorem C16_slot_overflow :
    ∃ b : cbuffer Nat,
      run false ((List.replicate 4294967295 0).map Op.add_tail ++
        (List.replicate 4294967294 Op.remove_head ++ [Op.add_tail 1, Op.add_tail 2]))
        (cbuffer.ctor_capacity 4294967295) = .ok b ∧
      b._capacity = 4294967295 ∧ b._head = 4294967294 ∧ b._currentSize = 3 ∧
      b.operator_index false 2 = load b._buffer 0 ∧
      uadd b._head 2 % b._capacity = 0 ∧
      (b._head + 2) % b._capacity = 1 := by
  have hl : (List.replicate 4294967295 (0 : Nat)).length = 4294967295 :=
    List.length_replicate _ _
  generalize List.replicate 4294967295 (0 : Nat) = ys at hl ⊢
  refine ⟨_, big_star ys hl, rfl, rfl, rfl, big_index_last2 false _ _, ?_, ?_⟩
  · show uadd 4294967294 2 % 4294967295 = 0
    simp only [uadd, UINT_RANGE]
  · show (4294967294 + 2) % 4294967295 = 1
    norm_num

/-- C18 (totality under the preconditions): in every state an object can be in,
`add_tail` with capacity >= 1, `remove_head` and `remove_tail` with size > 0
(in either build), `operator[](i)` with `i < size`, `get_head` and `get_tail`
with size > 0, and the loop from `begin()` to `end()` (given more fuel than
elements) return without a fault: no modulo by zero, no failed assertion, no
access outside the array; the slots computed by `add_tail` and `operator[]` are
below the capacity, and the loop performs `size` dereferences. -/
theorem C18_total [Inhabited α] (b : cbuffer α) (h : Reach b) :
    (1 ≤ b.get_capacity → ∀ v, (∃ b', b.add_tail v = .ok b') ∧
        uadd b._head b._currentSize % b._capacity < b._capacity) ∧
      (0 < b.get_currentSize → ∀ nd,
        (∃ b', b.remove_head nd = .ok b') ∧ (∃ b', b.remove_tail nd = .ok b') ∧
        (∃ v, b.get_head nd = .ok v) ∧ (∃ v, b.get_tail nd = .ok v)) ∧
      (∀ i, i < b.get_currentSize → ∀ nd,
        (∃ v, b.operator_index nd i = .ok v) ∧
        uadd b._head i % b._capacity < b._capacity) ∧
      (∀ fuel, b.get_currentSize < fuel →
        ∃ vs, b.traverse fuel = some (.ok vs) ∧ vs.length = b.get_currentSize) := by
  have w := h.wf
  unfold cbuffer.get_capacity cbuffer.get_currentSize
  refine ⟨?_, ?_, ?_, ?_⟩
  · intro hc v
    exact ⟨add_tail_total w (by omega) v, Nat.mod_lt _ (by omega)⟩
  · intro hs nd
    refine ⟨remove_head_total w hs nd, remove_tail_total w hs nd, ?_, ?_⟩
    · obtain ⟨-, v, hv, -⟩ := operator_index_total w nd 0 hs
      exact ⟨v, hv⟩
    · have hcap := w.capacity_lt
      have hsz := w.size_le
      have e : usub b._currentSize 1 = b._currentSize - 1 := usub_exact hs (by omega)
      obtain ⟨-, v, hv, -⟩ := operator_index_total w nd (b._currentSize - 1) (by omega)
      refine ⟨v, ?_⟩
      unfold cbuffer.get_tail
      rw [e]
      exact hv
  · intro i hi nd
    obtain ⟨hp, v, hv, -⟩ := operator_index_total w nd i hi
    exact ⟨⟨v, hv⟩, hp⟩
  · intro fuel hf
    exact traverse_total w fuel hf

/-- C18, at the full buffer left by `cbuffer(3)` and `add_tail` of 1, 2, 3, 4. -/
theorem C18_total_witness :
    Reach (⟨some [4, 2, 3], 3, 3, 1, 0⟩ : cbuffer Nat) ∧
      (⟨some [4, 2, 3], 3, 3, 1, 0⟩ : cbuffer Nat).add_tail 5 = .ok ⟨some [4, 5, 3], 3, 3, 2, 1⟩ ∧
      (⟨some [4, 2, 3], 3, 3, 1, 0⟩ : cbuffer Nat).get_tail false = .ok 4 ∧
      (⟨some [4, 2, 3], 3, 3, 1, 0⟩ : cbuffer Nat).traverse 4 = some (.ok [2, 3, 4]) ∧
      ((1 ≤ (⟨some [4, 2, 3], 3, 3, 1, 0⟩ : cbuffer Nat).get_capacity → ∀ v,
          (∃ b', (⟨some [4, 2, 3], 3, 3, 1, 0⟩ : cbuffer Nat).add_tail v = .ok b') ∧
          uadd 1 3 % 3 < 3) ∧
        (0 < (⟨some [4, 2, 3], 3, 3, 1, 0⟩ : cbuffer Nat).get_currentSize → ∀ nd,
          (∃ b', (⟨some [4, 2, 3], 3, 3, 1, 0⟩ : cbuffer Nat).remove_head nd = .ok b') ∧
          (∃ b', (⟨some [4, 2, 3], 3, 3, 1, 0⟩ : cbuffer Nat).remove_tail nd = .ok b') ∧
          (∃ v, (⟨some [4, 2, 3], 3, 3, 1, 0⟩ : cbuffer Nat).get_head nd = .ok v) ∧
          (∃ v, (⟨some [4, 2, 3], 3, 3, 1, 0⟩ : cbuffer Nat).get_tail nd = .ok v)) ∧
        (∀ i, i < (⟨some [4, 2, 3], 3, 3, 1, 0⟩ : cbuffer Nat).get_currentSize → ∀ nd,
          (∃ v, (⟨some [4, 2, 3], 3, 3, 1, 0⟩ : cbuffer Nat).operator_index nd i = .ok v) ∧
          uadd 1 i % 3 < 3) ∧
        (∀ fuel, (⟨some [4, 2, 3], 3, 3, 1, 0⟩ : cbuffer Nat).get_currentSize < fuel →
          ∃ vs, (⟨some [4, 2, 3], 3, 3, 1, 0⟩ : cbuffer Nat).traverse fuel = some (.ok vs) ∧
            vs.length = (⟨some [4, 2, 3], 3, 3, 1, 0⟩ : cbuffer Nat).get_currentSize)) :=
  have hr : Reach (⟨some [4, 2, 3], 3, 3, 1, 0⟩ : cbuffer Nat) :=
    reach_of_run (Reach.ctor_capacity 3 (by decide))
      (show run false [.add_tail 1, .add_tail 2, .add_tail 3, .add_tail 4]
        (cbuffer.ctor_capacity 3 : cbuffer Nat) = .ok ⟨some [4, 2, 3], 3, 3, 1, 0⟩ from rfl)
  ⟨hr, rfl, rfl, rfl, C18_total _ hr⟩

/-- C11, failing input: capacity `c = 4294967295` and the sequence `xs` of
4294967295 zeros followed by 1, 2.  The range constructor returns the state of
`cbuffer(c)` followed by `add_tail` of each element, of size `c = min c |xs|`,
but its element `c - 2` is 2, while element `c - 2` of the last `c` elements of
`xs` is `xs[2 + (c - 2)] = 1`. -/
theorem C11_ctor_range_overflow :
    ∃ b : cbuffer Nat,
      cbuffer.ctor_range 4294967295 (List.replicate 4294967295 0 ++ [1, 2]) = .ok b ∧
      cbuffer.add_all (cbuffer.ctor_capacity 4294967295)
        (List.replicate 4294967295 0 ++ [1, 2]) = .ok b ∧
      b.get_currentSize = 4294967295 ∧
      b.operator_index false 4294967293 = .ok 2 ∧
      (List.replicate 4294967295 0 ++ [1, 2])[2 + 4294967293]? = some 1 := by
  have hl : (List.replicate 4294967295 (0 : Nat)).length = 4294967295 :=
    List.length_replicate _ _
  unfold cbuffer.ctor_range
  generalize List.replicate 4294967295 (0 : Nat) = ys at hl ⊢
  refine ⟨_, big_full_plus2 ys hl, big_full_plus2 ys hl, rfl, ?_, ?_⟩
  · rw [big_index_head2, load_set_same _ _ _ (by rw [List.length_set, hl]; omega)]
  · rw [List.getElem?_append_right (by omega)]
    have e : 2 + 4294967293 - ys.length = 0 := by omega
    rw [e]
    rfl

/-- C20, failing input: the buffer `b` left by `cbuffer(4294967295)`, `add_tail`
of 4294967295 zeros, 4294967294 calls of `remove_head()` and `add_tail(1)`
(size 2 < capacity, head 4294967294, tail 0, `b[1] == 1`).  `add_tail(2)`
followed by `remove_tail()` returns `b2` with the old capacity, size and head,
but `b2[1] == 2` and the tail index is 4294967294: `add_tail(2)` stored into
slot 0, the slot of `b[1]`, because `_head + _currentSize` wrapped. -/
theorem C20_round_trip_overflow :
    ∃ b b1 b2 : cbuffer Nat,
      run false ((List.replicate 4294967295 0).map Op.add_tail ++
        (List.replicate 4294967294 Op.remove_head ++ [Op.add_tail 1]))
        (cbuffer.ctor_capacity 4294967295) = .ok b ∧
      b._currentSize = 2 ∧ b._capacity = 4294967295 ∧
      b.add_tail 2 = .ok b1 ∧ b1.remove_tail false = .ok b2 ∧
      b2._capacity = b._capacity ∧ b2._currentSize = b._currentSize ∧ b2._head = b._head ∧
      b.operator_index false 1 = .ok 1 ∧ b2.operator_index false 1 = .ok 2 ∧
      b._tail = 0 ∧ b2._tail = 4294967294 := by
  have hl : (List.replicate 4294967295 (0 : Nat)).length = 4294967295 :=
    List.length_replicate _ _
  generalize List.replicate 4294967295 (0 : Nat) = ys at hl ⊢
  have hl1 : (ys.set 0 1).length = 4294967295 := by rw [List.length_set]; exact hl
  refine ⟨_, _, _, big_prestar_gen ys hl 1, rfl, rfl, big_add_tail_last2 _ hl1 _ 2,
    big_remove_tail_last false _, rfl, rfl, rfl, ?_, ?_, rfl, rfl⟩
  · rw [big_index_last1 _ _ _ _ (by omega), load_set_same _ _ _ (by omega)]
  · rw [big_index_last1 _ _ _ _ (by omega), load_set_same _ _ _ (by omega)]

/-- C19, failing input: the full buffer `b` left by `cbuffer(4294967295)` and
`2 * 4294967295 - 1` calls of `add_tail(0)` (head 4294967294).  `add_tail(1)`
returns `d`, `remove_head()` followed by `add_tail(1)` returns `e`, and the two
states differ: in `d` the value 1 went to slot 4294967293 and `get_tail()` is
0, in `e` it went to slot 4294967294 and `get_tail()` is 1. -/
theorem C19_eviction_overflow :
    ∃ b d e1 e : cbuffer Nat,
      cbuffer.add_all (cbuffer.ctor_capacity 4294967295)
        (List.replicate 4294967295 0 ++ List.replicate 4294967294 0) = .ok b ∧
      b._currentSize = 4294967295 ∧ b._capacity = 4294967295 ∧
      b.add_tail 1 = .ok d ∧
      b.remove_head false = .ok e1 ∧ e1.add_tail 1 = .ok e ∧
      d.get_tail false = .ok 0 ∧ e.get_tail false = .ok 1 ∧ d ≠ e := by
  have hl : (List.replicate 4294967295 (0 : Nat)).length = 4294967295 :=
    List.length_replicate _ _
  have hall : ∀ p, p < 4294967295 → (List.replicate 4294967295 (0 : Nat))[p]? = some 0 :=
    fun p hp => by rw [List.getElem?_replicate, if_pos hp]
  generalize List.replicate 4294967295 (0 : Nat) = ys at hl hall ⊢
  obtain ⟨t, ht⟩ := big_full_last ys 0 hl hall
  have hd : cbuffer.get_tail false
      ⟨some (ys.set 4294967293 1), 4294967295, 4294967295, 0, 4294967294⟩ = .ok 0 := by
    rw [big_get_tail_head0, load_set_other _ _ _ _ (by omega)]
    exact load_of_get _ _ _ (hall _ (by omega))
  have he : cbuffer.get_tail false
      ⟨some (ys.set 4294967294 1), 4294967295, 4294967295, 0, 4294967294⟩ = .ok 1 := by
    rw [big_get_tail_head0, load_set_same _ _ _ (by omega)]
  refine ⟨_, _, _, _, ht, rfl, rfl, big_add_tail_wrap ys hl _ 1, big_remove_head_wrap false ys _,
    big_add_tail_refill ys hl _ 1, hd, he, ?_⟩
  intro heq
  rw [heq, he] at hd
  cases hd

/-- C13 (copy): for every object `A` in a reachable state, in any memory, the
copy constructor returns an object `B` with the same capacity, size, head index
and tail index and with `B[i] == A[i]` for every `i < size`, and leaves `A` as
it was; after any sequence of `add_tail`, `remove_head`, `remove_tail` (or
`clear`) calls on `A` that return, the state of `B` (its data members and its
array, hence its size and logical contents) is unchanged, and the same with `A`
and `B` exchanged. -/
theorem C13_copy [Inhabited α] (m : List (List α)) (A : cbuffer_obj)
    (hlive : A.live m = true) (hreach : Reach (A.state m)) :
    ∃ m1 B, cbuffer_obj.copy false m A = .ok (m1, B) ∧
      A.state m1 = A.state m ∧
      (B.state m1).get_capacity = (A.state m).get_capacity ∧
      (B.state m1).get_currentSize = (A.state m).get_currentSize ∧
      (B.state m1).get_head_physical_index = (A.state m).get_head_physical_index ∧
      (B.state m1).get_tail_physical_index = (A.state m).get_tail_physical_index ∧
      (∀ i, i < (A.state m).get_currentSize → ∀ nd, ∃ v,
        (B.state m1).operator_index nd i = .ok v ∧ (A.state m).operator_index nd i = .ok v) ∧
      (∀ nd ops m2 A', cbuffer_obj.run nd ops m1 A = .ok (m2, A') →
        B.state m2 = B.state m1) ∧
      (∀ nd ops m2 B', cbuffer_obj.run nd ops m1 B = .ok (m2, B') →
        A.state m2 = A.state m1) := by
  have w := hreach.wf
  obtain ⟨b, m1, B, hb, hcopy, hptr, hlen, hB, hA⟩ := obj_copy_spec false m A hlive w
  obtain ⟨b', hb', -, -, e1, e2, e3, e4, hidx⟩ := ctor_copy_spec false (A.state m) w
  rw [hb] at hb'
  cases hb'
  have hne : ∀ p, A._buffer = some p → p ≠ m.length := by
    intro p hp
    unfold cbuffer_obj.live at hlive
    rw [hp] at hlive
    have := of_decide_eq_true hlive
    omega
  refine ⟨m1, B, hcopy, hA, by rw [hB]; exact e1, by rw [hB]; exact e2, by rw [hB]; exact e3,
    by rw [hB]; exact e4, ?_, ?_, ?_⟩
  · intro i hi nd
    rw [hB]
    exact hidx i hi nd
  · intro nd ops m2 A' hrun
    obtain ⟨-, hframe⟩ := obj_run_frame hrun
    apply state_congr
    intro q hq
    rw [hptr] at hq
    cases hq
    exact hframe _ (fun hh => hne _ hh rfl)
  · intro nd ops m2 B' hrun
    obtain ⟨-, hframe⟩ := obj_run_frame hrun
    apply state_congr
    intro q hq
    refine hframe q ?_
    rw [hptr]
    intro hh
    cases hh
    exact hne _ hq rfl

/-- C13, at the object with array `[4, 2, 3]`, size 3, head 1 (the state left by
`cbuffer(3)` and `add_tail` of 1, 2, 3, 4), alone in the memory. -/
theorem C13_copy_witness :
    (⟨some 0, 3, 3, 1, 0⟩ : cbuffer_obj).live [[4, 2, 3]] = true ∧
      Reach ((⟨some 0, 3, 3, 1, 0⟩ : cbuffer_obj).state [[4, 2, 3]]) ∧
      cbuffer_obj.copy false [[4, 2, 3]] ⟨some 0, 3, 3, 1, 0⟩ =
        .ok ([[4, 2, 3], [4, 2, 3]], ⟨some 1, 3, 3, 1, 0⟩) ∧
      cbuffer_obj.run false [Op.add_tail 5, Op.remove_head] [[4, 2, 3], [4, 2, 3]]
        ⟨some 0, 3, 3, 1, 0⟩ = .ok ([[4, 5, 3], [4, 2, 3]], ⟨some 0, 3, 2, 0, 1⟩) ∧
      ∃ m1 B, cbuffer_obj.copy false [[4, 2, 3]] ⟨some 0, 3, 3, 1, 0⟩ = .ok (m1, B) ∧
        (⟨some 0, 3, 3, 1, 0⟩ : cbuffer_obj).state m1 =
          (⟨some 0, 3, 3, 1, 0⟩ : cbuffer_obj).state [[4, 2, 3]] ∧
        (B.state m1).get_capacity =
          ((⟨some 0, 3, 3, 1, 0⟩ : cbuffer_obj).state [[4, 2, 3]]).get_capacity ∧
        (B.state m1).get_currentSize =
          ((⟨some 0, 3, 3, 1, 0⟩ : cbuffer_obj).state [[4, 2, 3]]).get_currentSize ∧
        (B.state m1).get_head_physical_index =
          ((⟨some 0, 3, 3, 1, 0⟩ : cbuffer_obj).state [[4, 2, 3]]).get_head_physical_index ∧
        (B.state m1).get_tail_physical_index =
          ((⟨some 0, 3, 3, 1, 0⟩ : cbuffer_obj).state [[4, 2, 3]]).get_tail_physical_index ∧
        (∀ i, i < ((⟨some 0, 3, 3, 1, 0⟩ : cbuffer_obj).state [[4, 2, 3]]).get_currentSize →
          ∀ nd, ∃ v, (B.state m1).operator_index nd i = .ok v ∧
            ((⟨some 0, 3, 3, 1, 0⟩ : cbuffer_obj).state [[4, 2, 3]]).operator_index nd i
              = .ok v) ∧
        (∀ nd ops m2 A', cbuffer_obj.run nd ops m1 ⟨some 0, 3, 3, 1, 0⟩ = .ok (m2, A') →
          B.state m2 = B.state m1) ∧
        (∀ nd ops m2 B', cbuffer_obj.run nd ops m1 B = .ok (m2, B') →
          (⟨some 0, 3, 3, 1, 0⟩ : cbuffer_obj).state m2 =
            (⟨some 0, 3, 3, 1, 0⟩ : cbuffer_obj).state m1) :=
  have hr : Reach ((⟨some 0, 3, 3, 1, 0⟩ : cbuffer_obj).state [[4, 2, 3]]) :=
    reach_of_run (Reach.ctor_capacity 3 (by decide))
      (show run false [.add_tail 1, .add_tail 2, .add_tail 3, .add_tail 4]
        (cbuffer.ctor_capacity 3 : cbuffer Nat) = .ok ⟨some [4, 2, 3], 3, 3, 1, 0⟩ from rfl)
  ⟨rfl, hr, rfl, rfl, C13_copy [[4, 2, 3]] ⟨some 0, 3, 3, 1, 0⟩ rfl hr⟩

/-- C17, failing input, with elements of type `Option Nat`: every `add_tail`
stores a value `some _`, and a slot that was never assigned holds
`default = none`.  `A` is the buffer left by `cbuffer(4294967295)`, `add_tail`
of 4294967295 times `some 0`, 4294967294 calls of `remove_head()`,
`add_tail(some 1)`, `add_tail(some 2)` (size 3, head 4294967294), and `B` its
copy.  The copy loop assigns the slots `operator[]` computes (4294967294, 0,
0), the loop from `begin()` to `end()` on `B` dereferences the slots 4294967294,
0, 1 and yields `some 0`, `some 2`, `none`: slot 1 of `B` was never written. -/
theorem C17_unwritten_slot_read :
    ∃ A B : cbuffer (Option Nat),
      run false ((List.replicate 4294967295 (some 0)).map Op.add_tail ++
        (List.replicate 4294967294 Op.remove_head ++
          [Op.add_tail (some 1), Op.add_tail (some 2)]))
        (cbuffer.ctor_capacity 4294967295) = .ok A ∧
      cbuffer.ctor_copy false A = .ok B ∧
      B.get_currentSize = 3 ∧ (default : Option Nat) = none ∧
      ∀ k, B.traverse (k + 4) = some (.ok [some 0, some 2, none]) := by
  have hl : (List.replicate 4294967295 (some 0 : Option Nat)).length = 4294967295 :=
    List.length_replicate _ _
  have g : (List.replicate 4294967295 (some 0 : Option Nat))[4294967294]? = some (some 0) := by
    rw [List.getElem?_replicate, if_pos (by omega)]
  generalize List.replicate 4294967295 (some 0 : Option Nat) = ys at hl g ⊢
  have hz : (List.replicate 4294967295 (default : Option Nat)).length = 4294967295 :=
    List.length_replicate _ _
  have gz : (List.replicate 4294967295 (default : Option Nat))[1]? = some none := by
    rw [List.getElem?_replicate, if_pos (by omega)]
    rfl
  have hcopy := ctor_copy_eq false ((ys.set 0 (some 1)).set 0 (some 2))
    4294967295 3 4294967294 0
  generalize List.replicate 4294967295 (default : Option Nat) = zs at hz gz hcopy
  have hx : ((ys.set 0 (some 1)).set 0 (some 2))[4294967294]? = some (some 0) := by
    rw [List.getElem?_set_ne (by omega), List.getElem?_set_ne (by omega)]; exact g
  have hy : ((ys.set 0 (some 1)).set 0 (some 2))[0]? = some (some 2) :=
    List.getElem?_set_self (by rw [List.length_set, hl]; omega)
  rw [big_copy_loop _ zs (some 0) (some 2) hz hx hy] at hcopy
  refine ⟨_, _, big_star_gen ys hl (some 1) (some 2), hcopy, rfl, rfl, ?_⟩
  intro k
  have hz1 : (zs.set 4294967294 (some 0)).length = 4294967295 := by
    rw [List.length_set]; exact hz
  have hz2 : ((zs.set 4294967294 (some 0)).set 0 (some 2)).length = 4294967295 := by
    rw [List.length_set]; exact hz1
  apply big_traverse_last
  · rw [load_set_other _ _ _ _ (by omega), load_set_other _ _ _ _ (by omega)]
    exact load_set_same _ _ _ (by omega)
  · exact load_set_same _ _ _ (by omega)
  · rw [load_set_other _ _ _ _ (by omega), load_set_other _ _ _ _ (by omega),
      load_set_other _ _ _ _ (by omega)]
    exact load_of_get _ _ _ gz

end Claims

end CircularBuffer
